import Mathlib

/-!
Verification development for the dokhan backend (Rust sources under
src/src-tauri/src).  Rust strings are modelled as lists of Unicode
codepoints (List Nat); bytes are modelled as Nat values below 256.
Each definition is a direct translation of the function of the same
name in the Rust sources; deviations forced by the embedding are
noted in the doc comments.
-/

set_option maxRecDepth 10000

namespace Dokhan

/-- Convenience embedding of a Lean string literal as the list of its
Unicode codepoints, used to write concrete inputs readably. -/
def str (s : String) : List Nat := s.toList.map Char.toNat

/-- ASCII lowercase of one codepoint, mirroring Rust
char::to_ascii_lowercase (only A-Z are mapped). -/
def asciiLowerChar (c : Nat) : Nat :=
  if 65 ≤ c ∧ c ≤ 90 then c + 32 else c

/-- ASCII lowercase of a string, mirroring Rust str::to_ascii_lowercase. -/
def asciiLower (s : List Nat) : List Nat := s.map asciiLowerChar

/-- Unicode lowercase of one codepoint as used by Rust str::to_lowercase,
restricted to the characters this code base distinguishes: ASCII A-Z,
the German letters 196 = capital A-umlaut (to 228), 214 = capital
O-umlaut (to 246), 220 = capital U-umlaut (to 252) and 7838 = capital
sharp s (to 223).  All other codepoints are left unchanged. -/
def lowerChar (c : Nat) : Nat :=
  if 65 ≤ c ∧ c ≤ 90 then c + 32
  else if c = 196 then 228
  else if c = 214 then 246
  else if c = 220 then 252
  else if c = 7838 then 223
  else c

/-- Fuel-driven worker for replaceAll; fuel is the length of the
remaining input, so the fuel-zero case with a nonempty list is never
reached from the wrapper. -/
def replaceAllGo (pat rep : List Nat) : Nat → List Nat → List Nat
  | _, [] => []
  | 0, s => s
  | fuel + 1, a :: rest =>
    if pat.isPrefixOf (a :: rest) then
      rep ++ replaceAllGo pat rep fuel (List.drop (pat.length - 1) rest)
    else
      a :: replaceAllGo pat rep fuel rest

/-- Rust String::replace: replace every non-overlapping occurrence of
pat by rep, scanning left to right.  The Rust callers never pass an
empty pattern; for completeness an empty pattern leaves the string
unchanged. -/
def replaceAll (pat rep s : List Nat) : List Nat :=
  if pat.isEmpty then s else replaceAllGo pat rep s.length s

/-- Model of normalize_search_key (runtime/search.rs): lowercase, then
fold the German umlauts and sharp s into their digraphs.  The Rust
function memoizes results in a bounded cache; the cache is semantically
transparent, so only the computation is modelled. -/
def normalize_search_key (s : List Nat) : List Nat :=
  replaceAll [223] [115, 115]
    (replaceAll [252] [117, 101]
      (replaceAll [246] [111, 101]
        (replaceAll [228] [97, 101] (s.map lowerChar))))

/-- Model of normalize_search_key_loose (runtime/search.rs): the strict
normalization followed by collapsing the digraphs ae, oe, ue. -/
def normalize_search_key_loose (s : List Nat) : List Nat :=
  replaceAll [117, 101] [117]
    (replaceAll [111, 101] [111]
      (replaceAll [97, 101] [97] (normalize_search_key s)))

theorem lowerChar_idem (c : Nat) : lowerChar (lowerChar c) = lowerChar c := by
  unfold lowerChar
  split_ifs <;> omega

theorem replaceAllGo_of_not_mem {c : Nat} (r : List Nat) :
    ∀ (fuel : Nat) (s : List Nat), s.length ≤ fuel → c ∉ s →
      replaceAllGo [c] r fuel s = s := by
  intro fuel
  induction fuel with
  | zero =>
    intro s hlen _
    cases s with
    | nil => rfl
    | cons a rest => simp at hlen
  | succ n ih =>
    intro s hlen hmem
    cases s with
    | nil => rfl
    | cons a rest =>
      have hne : ¬ (c = a) := by
        intro h; exact hmem (by simp [h])
      have hpre : List.isPrefixOf [c] (a :: rest) = false := by
        simp [List.isPrefixOf, List.isPrefixOf_nil_left]
        intro h; exact hne (by simpa using h)
      simp only [replaceAllGo, hpre]
      simp only [Bool.false_eq_true, if_false]
      congr 1
      apply ih
      · simpa using Nat.le_of_succ_le_succ hlen
      · intro h; exact hmem (by simp [h])

theorem mem_replaceAllGo {c d : Nat} {r : List Nat} :
    ∀ (fuel : Nat) (s : List Nat), s.length ≤ fuel →
      d ∈ replaceAllGo [c] r fuel s → d ∈ r ∨ (d ∈ s ∧ d ≠ c) := by
  intro fuel
  induction fuel with
  | zero =>
    intro s hlen hd
    cases s with
    | nil => simp [replaceAllGo] at hd
    | cons a rest => simp at hlen
  | succ n ih =>
    intro s hlen hd
    cases s with
    | nil => simp [replaceAllGo] at hd
    | cons a rest =>
      by_cases hca : ([c] : List Nat).isPrefixOf (a :: rest)
      · have hac : c = a := by
          simpa [List.isPrefixOf] using hca
        simp only [replaceAllGo, hca, if_true] at hd
        rcases List.mem_append.mp hd with h | h
        · exact Or.inl h
        · have := ih rest (by simpa using Nat.le_of_succ_le_succ hlen) (by simpa using h)
          rcases this with h2 | ⟨h2, h3⟩
          · exact Or.inl h2
          · exact Or.inr ⟨List.mem_cons_of_mem _ h2, h3⟩
      · simp only [replaceAllGo, hca, if_false] at hd
        rcases List.mem_cons.mp hd with h | h
        · subst h
          refine Or.inr ⟨List.mem_cons_self _ _, ?_⟩
          intro h
          exact hca (by simp [List.isPrefixOf, h])
        · have := ih rest (by simpa using Nat.le_of_succ_le_succ hlen) h
          rcases this with h2 | ⟨h2, h3⟩
          · exact Or.inl h2
          · exact Or.inr ⟨List.mem_cons_of_mem _ h2, h3⟩

theorem mem_replaceAll_single {c d : Nat} {r s : List Nat}
    (hd : d ∈ replaceAll [c] r s) : d ∈ r ∨ (d ∈ s ∧ d ≠ c) := by
  unfold replaceAll at hd
  simp only [List.isEmpty] at hd
  exact mem_replaceAllGo s.length s (Nat.le_refl _) hd

theorem replaceAll_of_not_mem {c : Nat} {r s : List Nat} (h : c ∉ s) :
    replaceAll [c] r s = s := by
  unfold replaceAll
  simp only [List.isEmpty]
  exact replaceAllGo_of_not_mem r s.length s (Nat.le_refl _) h

/-- Lowercase Latin vowels and s are fixed points of lowerChar and are
distinct from the four folded German letters. -/
theorem goodOfPlain {d : Nat}
    (h : d = 97 ∨ d = 101 ∨ d = 111 ∨ d = 115 ∨ d = 117) :
    lowerChar d = d ∧ d ≠ 228 ∧ d ≠ 246 ∧ d ≠ 252 ∧ d ≠ 223 := by
  rcases h with h | h | h | h | h <;> subst h <;> exact ⟨by decide, by decide, by decide, by decide, by decide⟩

/-- Codepoints appearing in the strict normalization output are fixed
by lowerChar and are none of the four folded German letters. -/
theorem normGood {d : Nat} {s : List Nat} (hd : d ∈ normalize_search_key s) :
    lowerChar d = d ∧ d ≠ 228 ∧ d ≠ 246 ∧ d ≠ 252 ∧ d ≠ 223 := by
  unfold normalize_search_key at hd
  rcases mem_replaceAll_single hd with h | ⟨h, h223⟩
  · apply goodOfPlain; simp at h; omega
  rcases mem_replaceAll_single h with h2 | ⟨h2, h252⟩
  · apply goodOfPlain; simp at h2; omega
  rcases mem_replaceAll_single h2 with h3 | ⟨h3, h246⟩
  · apply goodOfPlain; simp at h3; omega
  rcases mem_replaceAll_single h3 with h4 | ⟨h4, h228⟩
  · apply goodOfPlain; simp at h4; omega
  rcases List.mem_map.mp h4 with ⟨e, _, he⟩
  exact ⟨he ▸ lowerChar_idem e, h228, h246, h252, h223⟩

theorem map_lowerChar_norm (s : List Nat) :
    (normalize_search_key s).map lowerChar = normalize_search_key s := by
  have h : (normalize_search_key s).map lowerChar
      = (normalize_search_key s).map id := by
    apply List.map_congr_left
    intro d hd
    exact (normGood hd).1
  rw [h, List.map_id]

theorem normalize_search_key_idem (s : List Nat) :
    normalize_search_key (normalize_search_key s) = normalize_search_key s := by
  show replaceAll [223] [115, 115]
      (replaceAll [252] [117, 101]
        (replaceAll [246] [111, 101]
          (replaceAll [228] [97, 101]
            ((normalize_search_key s).map lowerChar)))) = normalize_search_key s
  rw [map_lowerChar_norm]
  rw [replaceAll_of_not_mem (fun h => (normGood h).2.1 rfl)]
  rw [replaceAll_of_not_mem (fun h => (normGood h).2.2.1 rfl)]
  rw [replaceAll_of_not_mem (fun h => (normGood h).2.2.2.1 rfl)]
  rw [replaceAll_of_not_mem (fun h => (normGood h).2.2.2.2 rfl)]

/-! ## Data model (app/model.rs) -/

/-- Model of EntryDetail (app/model.rs). -/
structure EntryDetail where
  id : Nat
  headword : List Nat
  aliases : List (List Nat)
  source_path : List Nat
  target_local : List Nat
  definition_text : List Nat
  definition_html : List Nat
deriving DecidableEq

/-- Model of EntrySearchKey (app/model.rs). -/
structure EntrySearchKey where
  headword : List Nat
  headword_loose : List Nat
  body : List Nat
  body_loose : List Nat
  aliases : List (List Nat)
  aliases_loose : List (List Nat)
deriving DecidableEq

/-- Model of DictionaryIndexEntry (app/model.rs). -/
structure DictionaryIndexEntry where
  id : Nat
  headword : List Nat
  aliases : List (List Nat)
  source_path : List Nat
deriving DecidableEq

/-- Model of SearchHit (app/model.rs). -/
structure SearchHit where
  id : Nat
  headword : List Nat
  source_path : List Nat
  score : Nat
  snippet : List Nat
deriving DecidableEq

/-! ## Search (runtime/search.rs) -/

/-- Search key of one entry, the loop body of build_entry_search_keys
(runtime/search.rs). -/
def entryKeyOf (e : EntryDetail) : EntrySearchKey :=
  { headword := normalize_search_key e.headword
    headword_loose := normalize_search_key_loose e.headword
    body := normalize_search_key e.definition_text
    body_loose := normalize_search_key_loose e.definition_text
    aliases := e.aliases.map normalize_search_key
    aliases_loose := e.aliases.map normalize_search_key_loose }

/-- Model of build_entry_search_keys (runtime/search.rs). -/
def build_entry_search_keys (entries : List EntryDetail) : List EntrySearchKey :=
  entries.map entryKeyOf

/-- Substring test: Rust str::contains for the codepoint model. -/
def containsSub (needle : List Nat) : List Nat → Bool
  | [] => needle.isEmpty
  | a :: rest => needle.isPrefixOf (a :: rest) || containsSub needle rest

/-- Model of starts_with_search_key_precomputed (runtime/search.rs). -/
def starts_with_search_key_precomputed
    (value_key value_loose p_key p_loose : List Nat) : Bool :=
  p_key.isPrefixOf value_key || p_loose.isPrefixOf value_loose

/-- Model of contains_search_key_precomputed (runtime/search.rs). -/
def contains_search_key_precomputed
    (value_key value_loose term_key term_loose : List Nat) : Bool :=
  containsSub term_key value_key || containsSub term_loose value_loose

/-- ASCII whitespace; Rust split_whitespace uses Unicode whitespace, of
which this code base only ever meets the ASCII subset. -/
def isWsChar (c : Nat) : Bool := c = 32 || c = 9 || c = 10 || c = 13

/-- Worker for splitWs, carrying the current (reversed) word. -/
def splitWsGo (acc : List Nat) : List Nat → List (List Nat)
  | [] => if acc.isEmpty then [] else [acc.reverse]
  | c :: rest =>
    if isWsChar c then
      if acc.isEmpty then splitWsGo [] rest else acc.reverse :: splitWsGo [] rest
    else splitWsGo (c :: acc) rest

/-- Rust str::split_whitespace: whitespace-separated words, empties
dropped. -/
def splitWs (s : List Nat) : List (List Nat) := splitWsGo [] s

/-- Model of compact_ws (parsing/text.rs): split on whitespace and
rejoin with single spaces. -/
def compact_ws (s : List Nat) : List Nat := List.intercalate [32] (splitWs s)

/-- Per-term match against headword or any alias, as in the
search_entries_linear loop (runtime/search.rs). -/
def termInHead (k : EntrySearchKey) (t : List Nat × List Nat) : Bool :=
  contains_search_key_precomputed k.headword k.headword_loose t.1 t.2 ||
    (k.aliases.zip k.aliases_loose).any fun al =>
      contains_search_key_precomputed al.1 al.2 t.1 t.2

/-- Per-term match against the body, as in the search_entries_linear
loop (runtime/search.rs). -/
def termInBody (k : EntrySearchKey) (t : List Nat × List Nat) : Bool :=
  contains_search_key_precomputed k.body k.body_loose t.1 t.2

/-- The scoring loop of search_entries_linear: every term must match in
head or body (else none), and each term adds 5 for a head match plus 2
for a body match. -/
def scoreTerms (k : EntrySearchKey) : List (List Nat × List Nat) → Option Nat
  | [] => some 0
  | t :: rest =>
    let ih := termInHead k t
    let ib := termInBody k t
    if ih || ib then
      (scoreTerms k rest).map fun s =>
        s + (if ih then 5 else 0) + (if ib then 2 else 0)
    else none

/-- Construction of one SearchHit row in search_entries_linear,
including the 180-codepoint snippet. -/
def mkSearchHit (e : EntryDetail) (score : Nat) : SearchHit :=
  { id := e.id
    headword := e.headword
    source_path := e.source_path
    score := score
    snippet := e.definition_text.take 180 }

/-- Lexicographic comparison of codepoint lists; agrees with Rust
String::cmp, since UTF-8 byte order coincides with codepoint order. -/
def compareList : List Nat → List Nat → Ordering
  | [], [] => .eq
  | [], _ :: _ => .lt
  | _ :: _, [] => .gt
  | a :: s, b :: u =>
    match compare a b with
    | .eq => compareList s u
    | o => o

/-- Sort predicate of search_entries_linear: the comparator
b.score.cmp(a.score).then(a.headword.cmp(b.headword)) of hits.sort_by
(runtime/search.rs), read as a not-greater test for the stable merge
sort. -/
def hitLE (a b : SearchHit) : Bool :=
  decide ((compare b.score a.score).then (compareList a.headword b.headword) ≠ Ordering.gt)

/-- Normalized query terms: split the query on whitespace and pair the
strict and loose normalizations of each term (the terms vector of
search_entries_linear). -/
def queryTerms (query : List Nat) : List (List Nat × List Nat) :=
  (splitWs query).map fun x =>
    (normalize_search_key x, normalize_search_key_loose x)

/-- Insertion into a sorted list: the element goes in front of the
first position where it compares not-greater. -/
def insertLE {α : Type} (le : α → α → Bool) (a : α) : List α → List α
  | [] => [a]
  | b :: t => if le a b then a :: b :: t else b :: insertLE le a t

/-- Stable sort by a boolean not-greater predicate, modelling Rust
Vec::sort_by.  Rust uses a stable merge sort; every stable sort run
with the same total preorder yields the same list, and this structural
insertion sort evaluates by kernel reduction. -/
def sortByLE {α : Type} (le : α → α → Bool) (l : List α) : List α :=
  l.foldr (insertLE le) []

/-- Model of search_entries_linear (runtime/search.rs). -/
def search_entries_linear (query : List Nat) (limit : Nat)
    (entries : List EntryDetail) (keys : List EntrySearchKey) : List SearchHit :=
  let terms := queryTerms query
  let hits := (entries.zip keys).filterMap fun ek =>
    (scoreTerms ek.2 terms).map (mkSearchHit ek.1)
  (sortByLE hitLE hits).take limit

/-- Rust usize::clamp with lo below hi. -/
def clampNat (x lo hi : Nat) : Nat := max lo (min x hi)

/-- Model of search_entries_impl (runtime/search.rs) on the linear
path: empty compacted queries return nothing, otherwise the linear
scorer runs with the limit defaulted to 50 and clamped to 1..=200.
The Tantivy fast path of search_entries_impl delegates scoring to an
external library and falls back to exactly this computation on any
index error; the external index is outside this embedding. -/
def search_entries_impl_fallback (query : List Nat) (limit : Option Nat)
    (entries : List EntryDetail) : List SearchHit :=
  let q := compact_ws query
  if q.isEmpty then []
  else
    search_entries_linear q (clampNat (limit.getD 50) 1 200) entries
      (build_entry_search_keys entries)

/-- Projection of an entry to a DictionaryIndexEntry row
(get_index_entries_impl in runtime/search.rs). -/
def toIndexRow (e : EntryDetail) : DictionaryIndexEntry :=
  { id := e.id
    headword := e.headword
    aliases := e.aliases
    source_path := e.source_path }

/-- The collection loop of get_index_entries_impl: push matching rows
and stop once the limit is reached; limit is the remaining capacity. -/
def collectIdx (limit : Nat) (pEmpty : Bool) (pKey pLoose : List Nat) :
    List (EntryDetail × EntrySearchKey) → List DictionaryIndexEntry
  | [] => []
  | (e, k) :: rest =>
    if pEmpty ||
        starts_with_search_key_precomputed k.headword k.headword_loose pKey pLoose then
      toIndexRow e ::
        (if limit ≤ 1 then [] else collectIdx (limit - 1) pEmpty pKey pLoose rest)
    else collectIdx limit pEmpty pKey pLoose rest

/-- Model of get_index_entries_impl (runtime/search.rs); the runtime
lookup is replaced by the entry list, whose search keys the runtime
builds with build_entry_search_keys (build_runtime_index in
runtime/state.rs). -/
def get_index_entries_impl (p : Option (List Nat)) (limit : Option Nat)
    (entries : List EntryDetail) : List DictionaryIndexEntry :=
  let keys := build_entry_search_keys entries
  let pv := p.getD []
  let pKey := normalize_search_key pv
  let pLoose := normalize_search_key_loose pv
  let lim :=
    if pv.isEmpty then clampNat (limit.getD entries.length) 1 (max entries.length 1)
    else clampNat (limit.getD 200) 1 5000
  collectIdx lim pv.isEmpty pKey pLoose (entries.zip keys)

/-! ## Lemmas for the search claims -/

theorem splitWsGo_append (b : List Nat) :
    ∀ (a : List Nat) (acc : List Nat),
      splitWsGo acc (a ++ 32 :: b) = splitWsGo acc a ++ splitWsGo [] b := by
  intro a
  induction a with
  | nil =>
    intro acc
    by_cases h : acc.isEmpty <;> simp [splitWsGo, isWsChar, h]
  | cons c a ih =>
    intro acc
    by_cases hws : isWsChar c
    · by_cases h : acc.isEmpty <;> simp [splitWsGo, hws, h, ih]
    · simp [splitWsGo, hws, ih]

theorem splitWs_append (a b : List Nat) :
    splitWs (a ++ 32 :: b) = splitWs a ++ splitWs b :=
  splitWsGo_append b a []

theorem scoreTerms_append_isSome (k : EntrySearchKey) :
    ∀ (A B : List (List Nat × List Nat)),
      (scoreTerms k (A ++ B)).isSome → (scoreTerms k A).isSome := by
  intro A
  induction A with
  | nil => intro B _; simp [scoreTerms]
  | cons t A ih =>
    intro B h
    simp only [List.cons_append, scoreTerms] at h ⊢
    by_cases hc : termInHead k t || termInBody k t
    · simp only [hc, if_true, Option.isSome_map'] at h ⊢
      exact ih B h
    · simp [hc] at h

theorem length_insertLE {α : Type} (le : α → α → Bool) (a : α) :
    ∀ l : List α, (insertLE le a l).length = l.length + 1 := by
  intro l
  induction l with
  | nil => rfl
  | cons b t ih =>
    by_cases h : le a b <;> simp [insertLE, h, ih]

theorem length_sortByLE {α : Type} (le : α → α → Bool) :
    ∀ l : List α, (sortByLE le l).length = l.length := by
  intro l
  induction l with
  | nil => rfl
  | cons a t ih =>
    show (insertLE le a (sortByLE le t)).length = t.length + 1
    rw [length_insertLE, ih]

theorem mem_insertLE {α : Type} (le : α → α → Bool) (a x : α) :
    ∀ l : List α, x ∈ insertLE le a l ↔ x = a ∨ x ∈ l := by
  intro l
  induction l with
  | nil => simp [insertLE]
  | cons b t ih =>
    by_cases h : le a b
    · simp [insertLE, h]
    · simp only [insertLE, h, Bool.false_eq_true, if_false, List.mem_cons, ih]
      tauto

theorem mem_sortByLE {α : Type} (le : α → α → Bool) (x : α) :
    ∀ l : List α, x ∈ sortByLE le l ↔ x ∈ l := by
  intro l
  induction l with
  | nil => simp [sortByLE]
  | cons a t ih =>
    show x ∈ insertLE le a (sortByLE le t) ↔ _
    rw [mem_insertLE, ih]
    simp [eq_comm]

theorem pairwise_insertLE {α : Type} (le : α → α → Bool)
    (htrans : ∀ a b c, le a b → le b c → le a c)
    (htotal : ∀ a b, le a b || le b a) (a : α) :
    ∀ l : List α, l.Pairwise (le · ·) → (insertLE le a l).Pairwise (le · ·) := by
  intro l
  induction l with
  | nil => intro _; simp [insertLE]
  | cons b t ih =>
    intro hp
    rw [List.pairwise_cons] at hp
    obtain ⟨hb, ht⟩ := hp
    by_cases hab : le a b
    · rw [show insertLE le a (b :: t) = a :: b :: t by simp [insertLE, hab]]
      rw [List.pairwise_cons]
      refine ⟨?_, List.pairwise_cons.mpr ⟨hb, ht⟩⟩
      intro x hx
      rcases List.mem_cons.mp hx with h | h
      · subst h; exact hab
      · exact htrans a b x hab (hb x h)
    · rw [show insertLE le a (b :: t) = b :: insertLE le a t by simp [insertLE, hab]]
      rw [List.pairwise_cons]
      constructor
      · intro x hx
        rcases (mem_insertLE le a x t).mp hx with h | h
        · have ht2 := htotal a b
          simp only [Bool.or_eq_true] at ht2
          rcases ht2 with h' | h'
          · exact absurd h' hab
          · rw [h]; exact h'
        · exact hb x h
      · exact ih ht

theorem sorted_sortByLE {α : Type} (le : α → α → Bool)
    (htrans : ∀ a b c, le a b → le b c → le a c)
    (htotal : ∀ a b, le a b || le b a) :
    ∀ l : List α, (sortByLE le l).Pairwise (le · ·) := by
  intro l
  induction l with
  | nil => simp [sortByLE]
  | cons a t ih =>
    show (insertLE le a (sortByLE le t)).Pairwise (le · ·)
    exact pairwise_insertLE le htrans htotal a _ ih

theorem length_filterMap_le_of_imp {α β : Type} (f g : α → Option β)
    (h : ∀ x, (f x).isSome → (g x).isSome) :
    ∀ l : List α, (l.filterMap f).length ≤ (l.filterMap g).length := by
  intro l
  induction l with
  | nil => simp
  | cons a l ih =>
    simp only [List.filterMap_cons]
    cases hf : f a with
    | none =>
      cases hg : g a with
      | none => exact ih
      | some v => simpa using Nat.le_succ_of_le ih
    | some v =>
      have : (g a).isSome := h a (by simp [hf])
      cases hg : g a with
      | none => rw [hg] at this; simp at this
      | some w => simpa using Nat.succ_le_succ ih

/-- C8: for every string x, loose(x) equals loose(strict(x)), where
strict is normalize_search_key (lowercase plus umlaut and sharp-s
folding) and loose is normalize_search_key_loose (strict plus digraph
collapse); and strict maps the German capital and small A-umlaut to
ae, O-umlaut to oe and U-umlaut to ue. -/
theorem c8_normalization_coherence :
    (∀ x : List Nat,
      normalize_search_key_loose x
        = normalize_search_key_loose (normalize_search_key x)) ∧
    normalize_search_key (str "Ä") = str "ae" ∧
    normalize_search_key (str "ä") = str "ae" ∧
    normalize_search_key (str "Ö") = str "oe" ∧
    normalize_search_key (str "ö") = str "oe" ∧
    normalize_search_key (str "Ü") = str "ue" ∧
    normalize_search_key (str "ü") = str "ue" := by
  refine ⟨?_, by decide, by decide, by decide, by decide, by decide, by decide⟩
  intro x
  unfold normalize_search_key_loose
  rw [normalize_search_key_idem]

/-- C7: appending one further whitespace-separated term to a query
never increases the number of hits returned by the linear search path
search_entries_linear. -/
theorem c7_search_monotonicity
    (entries : List EntryDetail) (keys : List EntrySearchKey)
    (limit : Nat) (q t : List Nat) :
    (search_entries_linear (q ++ 32 :: t) limit entries keys).length ≤
      (search_entries_linear q limit entries keys).length := by
  unfold search_entries_linear queryTerms
  simp only [List.length_take, length_sortByLE]
  refine min_le_min (le_refl _) ?_
  rw [splitWs_append, List.map_append]
  apply length_filterMap_le_of_imp
  intro x
  simp only [Option.isSome_map']
  exact scoreTerms_append_isSome x.2 _ _

/-! ## Comparator lemmas shared by the sorting claims -/

theorem then_eq_gt (o p : Ordering) :
    (o.then p) = .gt ↔ (o = .gt ∨ (o = .eq ∧ p = .gt)) := by
  cases o <;> simp [Ordering.then]

theorem then_eq_eq (o p : Ordering) :
    (o.then p) = .eq ↔ (o = .eq ∧ p = .eq) := by
  cases o <;> simp [Ordering.then]

theorem compareList_eq_eq : ∀ a b : List Nat, compareList a b = .eq ↔ a = b := by
  intro a
  induction a with
  | nil => intro b; cases b <;> simp [compareList]
  | cons x xs ih =>
    intro b
    cases b with
    | nil => simp [compareList]
    | cons y ys =>
      simp only [compareList]
      rcases ho : compare x y with h | h | h
      · have hxy : x < y := Nat.compare_eq_lt.mp ho
        simp only []
        constructor
        · intro h; exact absurd h (by simp)
        · intro h
          have : x = y := by injection h
          omega
      · have hxy : x = y := Nat.compare_eq_eq.mp ho
        subst hxy
        rw [ih ys]
        constructor
        · intro h; rw [h]
        · intro h; injection h
      · have hxy : y < x := Nat.compare_eq_gt.mp ho
        constructor
        · intro h; exact absurd h (by simp)
        · intro h
          have : x = y := by injection h
          omega

theorem compareList_swap : ∀ a b : List Nat, (compareList a b).swap = compareList b a := by
  intro a
  induction a with
  | nil => intro b; cases b <;> simp [compareList, Ordering.swap]
  | cons x xs ih =>
    intro b
    cases b with
    | nil => simp [compareList, Ordering.swap]
    | cons y ys =>
      simp only [compareList]
      rcases ho : compare x y with h | h | h
      · rw [show compare y x = .gt from Nat.compare_eq_gt.mpr (Nat.compare_eq_lt.mp ho)]
        simp [Ordering.swap]
      · have hxy : x = y := Nat.compare_eq_eq.mp ho
        subst hxy
        rw [show compare x x = .eq from Nat.compare_eq_eq.mpr rfl]
        exact ih ys
      · rw [show compare y x = .lt from Nat.compare_eq_lt.mpr (Nat.compare_eq_gt.mp ho)]
        simp [Ordering.swap]

theorem compareList_cons (x y : Nat) (xs ys : List Nat) :
    compareList (x :: xs) (y :: ys) = (compare x y).then (compareList xs ys) := by
  cases h : compare x y <;> simp [compareList, Ordering.then, h]

theorem compareList_trans_ne_gt :
    ∀ a b c : List Nat, compareList a b ≠ .gt → compareList b c ≠ .gt →
      compareList a c ≠ .gt := by
  intro a
  induction a with
  | nil =>
    intro b c _ _
    cases c <;> simp [compareList]
  | cons x xs ih =>
    intro b c h1 h2
    cases b with
    | nil => simp [compareList] at h1
    | cons y ys =>
      cases c with
      | nil => simp [compareList] at h2
      | cons z zs =>
        rw [compareList_cons] at h1 h2 ⊢
        rw [Ne, then_eq_gt] at h1 h2 ⊢
        push_neg at h1 h2 ⊢
        have hxy : x ≤ y := Nat.compare_ne_gt.mp h1.1
        have hyz : y ≤ z := Nat.compare_ne_gt.mp h2.1
        constructor
        · exact Nat.compare_ne_gt.mpr (Nat.le_trans hxy hyz)
        · intro he
          have hxz : x = z := Nat.compare_eq_eq.mp he
          have he1 : x = y := by omega
          have he2 : y = z := by omega
          exact ih ys zs (h1.2 (Nat.compare_eq_eq.mpr he1))
            (h2.2 (Nat.compare_eq_eq.mpr he2))

theorem hitLE_eq_true_iff (a b : SearchHit) :
    hitLE a b = true ↔
      (b.score < a.score ∨
        (b.score = a.score ∧ compareList a.headword b.headword ≠ .gt)) := by
  unfold hitLE
  rw [decide_eq_true_eq, Ne, then_eq_gt]
  push_neg
  constructor
  · rintro ⟨hle, himp⟩
    rcases Nat.lt_or_ge b.score a.score with h | h
    · exact Or.inl h
    · have heq : b.score = a.score :=
        Nat.le_antisymm (Nat.compare_ne_gt.mp hle) h
      exact Or.inr ⟨heq, himp (Nat.compare_eq_eq.mpr heq)⟩
  · rintro (h | ⟨heq, hcl⟩)
    · exact ⟨Nat.compare_ne_gt.mpr (Nat.le_of_lt h),
        fun he => absurd (Nat.compare_eq_eq.mp he) (Nat.ne_of_lt h)⟩
    · exact ⟨Nat.compare_ne_gt.mpr (Nat.le_of_eq heq), fun _ => hcl⟩

theorem hitLE_trans (a b c : SearchHit) :
    hitLE a b → hitLE b c → hitLE a c := by
  intro h1 h2
  rw [hitLE_eq_true_iff] at h1 h2 ⊢
  rcases h1 with h1 | ⟨h1, h1c⟩ <;> rcases h2 with h2 | ⟨h2, h2c⟩
  · exact Or.inl (Nat.lt_trans h2 h1)
  · exact Or.inl (by omega)
  · exact Or.inl (by omega)
  · exact Or.inr ⟨by omega, compareList_trans_ne_gt _ _ _ h1c h2c⟩

theorem hitLE_total (a b : SearchHit) : hitLE a b || hitLE b a := by
  by_cases h : hitLE a b = true
  · simp [h]
  · have h' := h
    rw [hitLE_eq_true_iff] at h'
    push_neg at h'
    suffices hh : hitLE b a = true by simp [hh]
    rw [hitLE_eq_true_iff]
    rcases Nat.lt_or_ge a.score b.score with hs | hs
    · exact Or.inl hs
    · have heq : a.score = b.score := Nat.le_antisymm h'.1 hs
      refine Or.inr ⟨heq, ?_⟩
      have hgt : compareList a.headword b.headword = .gt := h'.2 heq.symm
      have := compareList_swap a.headword b.headword
      rw [hgt] at this
      intro hcon
      rw [← this] at hcon
      simp [Ordering.swap] at hcon

theorem scoreTerms_some_spec (k : EntrySearchKey) :
    ∀ (ts : List (List Nat × List Nat)) (s : Nat), scoreTerms k ts = some s →
      (∀ t ∈ ts, (termInHead k t || termInBody k t) = true) ∧
      s = ts.foldr
        (fun t acc =>
          acc + (if termInHead k t then 5 else 0)
              + (if termInBody k t then 2 else 0)) 0 := by
  intro ts
  induction ts with
  | nil =>
    intro s h
    simp [scoreTerms] at h
    simp [h.symm]
  | cons t rest ih =>
    intro s h
    simp only [scoreTerms] at h
    by_cases hc : termInHead k t || termInBody k t
    · simp only [hc, if_true, Option.map_eq_some'] at h
      obtain ⟨s0, hs0, hsum⟩ := h
      obtain ⟨hall, hval⟩ := ih s0 hs0
      refine ⟨?_, ?_⟩
      · intro u hu
        rcases List.mem_cons.mp hu with h | h
        · subst h; exact hc
        · exact hall u h
      · simp only [List.foldr_cons]
        omega
    · simp [hc] at h

/-- Entries zipped with their built search keys are exactly the entries
paired with entryKeyOf. -/
theorem zip_build_keys (entries : List EntryDetail) :
    entries.zip (build_entry_search_keys entries)
      = entries.map fun e => (e, entryKeyOf e) := by
  unfold build_entry_search_keys
  have h := List.zip_map' (fun e : EntryDetail => e) entryKeyOf entries
  simpa using h

/-- C5 counterexample input: an entry whose body holds the query terms
while headword and aliases do not. -/
def bodyOnlyEntry : EntryDetail :=
  { id := 5
    headword := str "Kopf"
    aliases := [str "Kopf"]
    source_path := str "merge1.chm"
    target_local := str "kopf.htm"
    definition_text := str "das rot und blau"
    definition_html := [] }

/-- C6 counterexample input: an entry whose headword starts with a. -/
def apfelEntry : EntryDetail :=
  { id := 1
    headword := str "Apfel"
    aliases := [str "Apfel"]
    source_path := str "merge2.chm"
    target_local := str "apfel.htm"
    definition_text := str "ein Apfel"
    definition_html := [] }

theorem collectIdx_eq_take_filter (pEmpty : Bool) (pKey pLoose : List Nat) :
    ∀ (l : List (EntryDetail × EntrySearchKey)) (c : Nat), 1 ≤ c →
      collectIdx c pEmpty pKey pLoose l =
        ((l.filter fun ek =>
            pEmpty ||
              starts_with_search_key_precomputed ek.2.headword ek.2.headword_loose
                pKey pLoose).map fun ek => toIndexRow ek.1).take c := by
  intro l
  induction l with
  | nil => intro c hc; simp [collectIdx]
  | cons ek rest ih =>
    intro c hc
    obtain ⟨e, k⟩ := ek
    by_cases hm : (pEmpty ||
        starts_with_search_key_precomputed k.headword k.headword_loose pKey pLoose) = true
    · cases c with
      | zero => omega
      | succ n =>
        simp only [collectIdx, hm, if_true, List.filter_cons, List.map_cons,
          List.take_succ_cons]
        cases n with
        | zero => simp
        | succ m =>
          have : ¬ (m + 1 + 1 ≤ 1) := by omega
          simp only [this, if_false]
          have hred : m + 1 + 1 - 1 = m + 1 := rfl
          rw [hred, ih (m + 1) (by omega)]
    · simp only [collectIdx, hm, List.filter_cons]
      simp only [Bool.false_eq_true, if_false, hm]
      exact ih c hc

/-- C5 counterexample: with limit 0, searchEntries on the linear path
still returns one hit (the code clamps the limit to at least 1), so the
hit count exceeds min(limit, 200) = 0, refuting the cap as claimed. -/
theorem c5_counterexample_limit_zero :
    (search_entries_impl_fallback (str "rot") (some 0) [bodyOnlyEntry]).length = 1 ∧
      min 0 200 = 0 := by
  constructor
  · decide
  · decide

/-- C5 (amended): on the linear path of searchEntries, every returned
hit comes from an entry in which each whitespace-separated query term
occurs in headword, alias or body under strict or loose normalization,
its score is the per-term sum of 5 for a head or alias occurrence plus
2 for a body occurrence, its snippet is the first 180 codepoints of the
definition text, the hit list is sorted by descending score with ties
by ascending headword, and its length is capped at clamp(limit, 1, 200)
rather than min(limit, 200); and the two-term body-only example query
scores 2 + 2 = 4. -/
theorem c5_amended_search_entries :
    (∀ (entries : List EntryDetail) (limit : Nat) (query : List Nat),
      (search_entries_impl_fallback query (some limit) entries).length
          ≤ clampNat limit 1 200 ∧
      (search_entries_impl_fallback query (some limit) entries).Pairwise
        (fun a b => b.score < a.score ∨
          (b.score = a.score ∧ compareList a.headword b.headword ≠ .gt)) ∧
      (∀ h ∈ search_entries_impl_fallback query (some limit) entries,
        ∃ e ∈ entries,
          h = mkSearchHit e h.score ∧
          h.snippet = e.definition_text.take 180 ∧
          (∀ t ∈ queryTerms (compact_ws query),
            (termInHead (entryKeyOf e) t || termInBody (entryKeyOf e) t) = true) ∧
          h.score = (queryTerms (compact_ws query)).foldr
            (fun t acc =>
              acc + (if termInHead (entryKeyOf e) t then 5 else 0)
                  + (if termInBody (entryKeyOf e) t then 2 else 0)) 0)) ∧
    search_entries_impl_fallback (str "rot blau") (some 10) [bodyOnlyEntry]
      = [{ id := 5
           headword := str "Kopf"
           source_path := str "merge1.chm"
           score := 4
           snippet := str "das rot und blau" }] := by
  constructor
  · intro entries limit query
    unfold search_entries_impl_fallback
    by_cases hq : (compact_ws query).isEmpty
    · simp [hq, List.Pairwise.nil]
    · simp only [hq, Bool.false_eq_true, if_false]
      refine ⟨?_, ?_, ?_⟩
      · unfold search_entries_linear
        exact List.length_take_le _ _
      · unfold search_entries_linear
        have hs := sorted_sortByLE hitLE
          (fun a b c => hitLE_trans a b c)
          (fun a b => hitLE_total a b)
          ((entries.zip (build_entry_search_keys entries)).filterMap fun ek =>
            (scoreTerms ek.2 (queryTerms (compact_ws query))).map (mkSearchHit ek.1))
        have hp := List.Pairwise.sublist
          (List.take_sublist (clampNat ((some limit).getD 50) 1 200) _) hs
        exact hp.imp fun hab => (hitLE_eq_true_iff _ _).mp hab
      · intro h hmem
        unfold search_entries_linear at hmem
        have hmem2 := List.mem_of_mem_take hmem
        rw [mem_sortByLE] at hmem2
        obtain ⟨ek, hek, hmap⟩ := List.mem_filterMap.mp hmem2
        rw [zip_build_keys] at hek
        obtain ⟨e, he, heq⟩ := List.mem_map.mp hek
        obtain ⟨s, hscore, hhit⟩ := Option.map_eq_some'.mp hmap
        have hek2 : ek.2 = entryKeyOf e := by rw [← heq]
        have hek1 : ek.1 = e := by rw [← heq]
        rw [hek2] at hscore
        obtain ⟨hall, hval⟩ := scoreTerms_some_spec (entryKeyOf e) _ s hscore
        refine ⟨e, he, ?_, ?_, hall, ?_⟩
        · rw [← hhit, hek1]
          rfl
        · rw [← hhit, hek1]
          rfl
        · rw [← hhit, hek1]
          exact hval
  · decide

/-- C6 counterexample: with a nonempty prefix and limit 0,
getIndexEntries returns one row (the code clamps the limit to at least
1), exceeding min(limit, 5000) = 0, refuting the cap as claimed. -/
theorem c6_counterexample_limit_zero :
    (get_index_entries_impl (some (str "a")) (some 0) [apfelEntry]).length = 1 ∧
      min 0 5000 = 0 := by
  constructor
  · decide
  · decide

/-- C6 (amended): getIndexEntries iterates entries in stored order;
with an empty or missing prefix it returns the first
clamp(limit, 1, max(len, 1)) rows (default limit = entries.length);
with a nonempty prefix it returns the entries whose normalized headword
starts with the normalized prefix under strict or loose normalization,
capped at clamp(limit, 1, 5000) rather than min(limit, 5000), with
default limit 200. -/
theorem c6_amended_index_entries (entries : List EntryDetail) (limit : Nat)
    (c0 : Nat) (rest : List Nat) :
    (get_index_entries_impl (some []) (some limit) entries
      = (entries.map toIndexRow).take (clampNat limit 1 (max entries.length 1))) ∧
    (get_index_entries_impl (some []) none entries
      = (entries.map toIndexRow).take
          (clampNat entries.length 1 (max entries.length 1))) ∧
    (get_index_entries_impl none (some limit) entries
      = get_index_entries_impl (some []) (some limit) entries) ∧
    (get_index_entries_impl (some (c0 :: rest)) (some limit) entries
      = (((entries.zip (build_entry_search_keys entries)).filter fun ek =>
            starts_with_search_key_precomputed ek.2.headword ek.2.headword_loose
              (normalize_search_key (c0 :: rest))
              (normalize_search_key_loose (c0 :: rest))).map
          fun ek => toIndexRow ek.1).take (clampNat limit 1 5000)) ∧
    (get_index_entries_impl (some (c0 :: rest)) none entries
      = (((entries.zip (build_entry_search_keys entries)).filter fun ek =>
            starts_with_search_key_precomputed ek.2.headword ek.2.headword_loose
              (normalize_search_key (c0 :: rest))
              (normalize_search_key_loose (c0 :: rest))).map
          fun ek => toIndexRow ek.1).take (clampNat 200 1 5000)) := by
  have hone : ∀ x hi : Nat, 1 ≤ clampNat x 1 hi := fun x hi => Nat.le_max_left _ _
  have hall : ∀ lim : Nat, 1 ≤ lim →
      collectIdx lim true (normalize_search_key []) (normalize_search_key_loose [])
          (entries.zip (build_entry_search_keys entries))
        = (entries.map toIndexRow).take lim := by
    intro lim h1
    rw [collectIdx_eq_take_filter true _ _ _ lim h1]
    congr 1
    simp only [Bool.true_or, List.filter_true]
    rw [zip_build_keys, List.map_map]
    rfl
  refine ⟨?_, ?_, ?_, ?_, ?_⟩
  · show collectIdx (clampNat limit 1 (max entries.length 1)) true
        (normalize_search_key []) (normalize_search_key_loose [])
        (entries.zip (build_entry_search_keys entries)) = _
    exact hall _ (hone _ _)
  · show collectIdx (clampNat entries.length 1 (max entries.length 1)) true
        (normalize_search_key []) (normalize_search_key_loose [])
        (entries.zip (build_entry_search_keys entries)) = _
    exact hall _ (hone _ _)
  · rfl
  · show collectIdx (clampNat limit 1 5000) false
        (normalize_search_key (c0 :: rest)) (normalize_search_key_loose (c0 :: rest))
        (entries.zip (build_entry_search_keys entries)) = _
    rw [collectIdx_eq_take_filter false _ _ _ _ (hone limit 5000)]
    simp only [Bool.false_or]
  · show collectIdx (clampNat 200 1 5000) false
        (normalize_search_key (c0 :: rest)) (normalize_search_key_loose (c0 :: rest))
        (entries.zip (build_entry_search_keys entries)) = _
    rw [collectIdx_eq_take_filter false _ _ _ _ (hone 200 5000)]
    simp only [Bool.false_or]

/-! ## Finalization of entry lists (runtime/zip.rs, finalize_entries) -/

/-- One element of the keyed vector in finalize_entries: the strict
normalized headword plus clones of source path and target local,
carried next to the entry. -/
structure KeyedEntry where
  hk : List Nat
  sk : List Nat
  lk : List Nat
  entry : EntryDetail
deriving DecidableEq

/-- The sort comparator of finalize_entries:
a.0.cmp(b.0).then(a.1.cmp(b.1)).then(a.2.cmp(b.2)). -/
def keyedCmp (a b : KeyedEntry) : Ordering :=
  (compareList a.hk b.hk).then
    ((compareList a.sk b.sk).then (compareList a.lk b.lk))

/-- Not-greater reading of keyedCmp for the stable sort. -/
def keyedLE (a b : KeyedEntry) : Bool := decide (keyedCmp a b ≠ Ordering.gt)

/-- The dedup_by predicate of finalize_entries: componentwise equality
of the key triple (the first argument is the candidate, the second the
previously kept element). -/
def sameKeyTriple (a b : KeyedEntry) : Bool :=
  a.hk == b.hk && a.sk == b.sk && a.lk == b.lk

/-- Worker of the consecutive dedup: drop elements equal to the last
kept one (Vec::dedup_by keeps the first element of each run). -/
def dedupGo (prev : KeyedEntry) : List KeyedEntry → List KeyedEntry
  | [] => []
  | b :: rest =>
    if sameKeyTriple b prev then dedupGo prev rest else b :: dedupGo b rest

/-- Vec::dedup_by on the key triple. -/
def dedupKeyed : List KeyedEntry → List KeyedEntry
  | [] => []
  | a :: rest => a :: dedupGo a rest

/-- Copy of an entry with a fresh id (the enumerate loop body of
finalize_entries). -/
def withId (e : EntryDetail) (i : Nat) : EntryDetail :=
  { e with id := i }

/-- The enumerate loop of finalize_entries: assign 1-based dense ids. -/
def assignIdsFrom (i : Nat) : List KeyedEntry → List EntryDetail
  | [] => []
  | k :: rest => withId k.entry (i + 1) :: assignIdsFrom (i + 1) rest

/-- Model of finalize_entries (runtime/zip.rs): key extraction, stable
sort on the triple, consecutive dedup on the triple, dense 1-based id
assignment. -/
def finalize_entries (entries : List EntryDetail) : List EntryDetail :=
  let keyed := entries.map fun e =>
    { hk := normalize_search_key e.headword
      sk := e.source_path
      lk := e.target_local
      entry := e : KeyedEntry }
  assignIdsFrom 0 (dedupKeyed (sortByLE keyedLE keyed))

theorem then_swap (o p : Ordering) : (o.then p).swap = o.swap.then p.swap := by
  cases o <;> rfl

theorem compareList_antisymm {a b : List Nat}
    (h1 : compareList a b ≠ .gt) (h2 : compareList b a ≠ .gt) : a = b := by
  rcases h : compareList a b with _ | _ | _
  · have := compareList_swap a b
    rw [h] at this
    exact absurd this.symm (by simpa [Ordering.swap] using h2)
  · exact (compareList_eq_eq a b).mp h
  · exact absurd h h1

theorem keyedCmp_eq_iff (a b : KeyedEntry) :
    keyedCmp a b = .eq ↔ (a.hk = b.hk ∧ a.sk = b.sk ∧ a.lk = b.lk) := by
  unfold keyedCmp
  rw [then_eq_eq, then_eq_eq, compareList_eq_eq, compareList_eq_eq, compareList_eq_eq]

theorem keyedCmp_swap (a b : KeyedEntry) : (keyedCmp a b).swap = keyedCmp b a := by
  unfold keyedCmp
  rw [then_swap, then_swap, compareList_swap, compareList_swap, compareList_swap]

theorem keyedLE_ne_gt_iff (a b : KeyedEntry) :
    keyedLE a b = true ↔
      (compareList a.hk b.hk ≠ .gt ∧
        (a.hk = b.hk →
          (compareList a.sk b.sk ≠ .gt ∧
            (a.sk = b.sk → compareList a.lk b.lk ≠ .gt)))) := by
  unfold keyedLE keyedCmp
  rw [decide_eq_true_eq, Ne, then_eq_gt]
  push_neg
  constructor
  · rintro ⟨h1, h2⟩
    refine ⟨h1, fun hk => ?_⟩
    have h3 := h2 ((compareList_eq_eq _ _).mpr hk)
    rw [Ne, then_eq_gt] at h3
    push_neg at h3
    exact ⟨h3.1, fun hs => h3.2 ((compareList_eq_eq _ _).mpr hs)⟩
  · rintro ⟨h1, h2⟩
    refine ⟨h1, fun hk => ?_⟩
    have h3 := h2 ((compareList_eq_eq _ _).mp hk)
    rw [Ne, then_eq_gt]
    push_neg
    exact ⟨h3.1, fun hs => h3.2 ((compareList_eq_eq _ _).mp hs)⟩

theorem keyedLE_trans (a b c : KeyedEntry) :
    keyedLE a b → keyedLE b c → keyedLE a c := by
  intro h1 h2
  rw [keyedLE_ne_gt_iff] at h1 h2 ⊢
  obtain ⟨t1, f1⟩ := h1
  obtain ⟨t2, f2⟩ := h2
  refine ⟨compareList_trans_ne_gt _ _ _ t1 t2, fun hac => ?_⟩
  have hab : a.hk = b.hk := by
    refine compareList_antisymm t1 ?_
    rw [show b.hk = b.hk from rfl, ← hac] at t2
    exact t2
  have hbc : b.hk = c.hk := by rw [← hab]; exact hac
  obtain ⟨s1, g1⟩ := f1 hab
  obtain ⟨s2, g2⟩ := f2 hbc
  refine ⟨compareList_trans_ne_gt _ _ _ s1 s2, fun hask => ?_⟩
  have hab2 : a.sk = b.sk := by
    refine compareList_antisymm s1 ?_
    rw [← hask] at s2
    exact s2
  have hbc2 : b.sk = c.sk := by rw [← hab2]; exact hask
  exact compareList_trans_ne_gt _ _ _ (g1 hab2) (g2 hbc2)

theorem keyedLE_total (a b : KeyedEntry) : keyedLE a b || keyedLE b a := by
  by_cases h : keyedCmp a b = .gt
  · suffices hh : keyedLE b a = true by simp [hh]
    unfold keyedLE
    rw [decide_eq_true_eq]
    intro hcon
    have := keyedCmp_swap a b
    rw [h, hcon] at this
    simp [Ordering.swap] at this
  · suffices hh : keyedLE a b = true by simp [hh]
    unfold keyedLE
    rw [decide_eq_true_eq]
    exact h

theorem keyedLE_antisymm_eq {a b : KeyedEntry}
    (h1 : keyedLE a b = true) (h2 : keyedLE b a = true) : keyedCmp a b = .eq := by
  unfold keyedLE at h1 h2
  rw [decide_eq_true_eq] at h1 h2
  rcases h : keyedCmp a b with _ | _ | _
  · have := keyedCmp_swap a b
    rw [h] at this
    exact absurd this.symm (by simpa [Ordering.swap] using h2)
  · rfl
  · exact absurd h h1

theorem sameKeyTriple_iff (a b : KeyedEntry) :
    sameKeyTriple a b = true ↔ (a.hk = b.hk ∧ a.sk = b.sk ∧ a.lk = b.lk) := by
  unfold sameKeyTriple
  simp [Bool.and_eq_true, beq_iff_eq, and_assoc]

theorem dedupGo_subset (x : KeyedEntry) :
    ∀ (l : List KeyedEntry) (prev : KeyedEntry), x ∈ dedupGo prev l → x ∈ l := by
  intro l
  induction l with
  | nil => intro prev h; simp [dedupGo] at h
  | cons b rest ih =>
    intro prev h
    by_cases hs : sameKeyTriple b prev
    · simp only [dedupGo, hs, if_true] at h
      exact List.mem_cons_of_mem _ (ih prev h)
    · simp only [dedupGo, hs, Bool.false_eq_true, if_false, List.mem_cons] at h
      rcases h with h | h
      · simp [h]
      · exact List.mem_cons_of_mem _ (ih b h)

/-- On a le-sorted list, the consecutive dedup yields pairwise distinct
key triples. -/
theorem pairwise_dedupGo :
    ∀ (l : List KeyedEntry) (prev : KeyedEntry),
      (prev :: l).Pairwise (keyedLE · ·) →
      (prev :: dedupGo prev l).Pairwise
        (fun k1 k2 => ¬(k1.hk = k2.hk ∧ k1.sk = k2.sk ∧ k1.lk = k2.lk)) := by
  intro l
  induction l with
  | nil => intro prev _; simp [dedupGo]
  | cons b rest ih =>
    intro prev hp
    by_cases hs : sameKeyTriple b prev
    · simp only [dedupGo, hs, if_true]
      refine ih prev ?_
      exact hp.sublist (by
        refine List.Sublist.cons₂ _ ?_
        exact List.sublist_cons_self _ _)
    · simp only [dedupGo, hs, Bool.false_eq_true, if_false]
      rw [List.pairwise_cons] at hp
      obtain ⟨hprev, hbrest⟩ := hp
      have hbtail := ih b hbrest
      rw [List.pairwise_cons]
      refine ⟨?_, hbtail⟩
      intro x hx
      rcases List.mem_cons.mp hx with hxb | hxgo
      · subst hxb
        intro hcon
        exact absurd ((sameKeyTriple_iff x prev).mpr
          ⟨hcon.1.symm, hcon.2.1.symm, hcon.2.2.symm⟩) (by simpa using hs)
      · intro hcon
        have hxmem : x ∈ rest := dedupGo_subset x rest b hxgo
        have hle_prev_b : keyedLE prev b = true := hprev b (List.mem_cons_self _ _)
        have hle_prev_x : keyedLE prev x = true :=
          hprev x (List.mem_cons_of_mem _ hxmem)
        have hle_b_x : keyedLE b x = true := by
          rw [List.pairwise_cons] at hbrest
          exact hbrest.1 x hxmem
        have hx_eq : keyedCmp prev x = .eq := by
          rw [keyedCmp_eq_iff]
          exact hcon
        have hle_x_prev : keyedLE x prev = true := by
          unfold keyedLE
          rw [decide_eq_true_eq]
          intro hgt
          have := keyedCmp_swap prev x
          rw [hx_eq, hgt] at this
          simp [Ordering.swap] at this
        have hle_b_prev : keyedLE b prev = true :=
          keyedLE_trans b x prev hle_b_x hle_x_prev
        have : keyedCmp prev b = .eq := keyedLE_antisymm_eq hle_prev_b hle_b_prev
        rw [keyedCmp_eq_iff] at this
        exact absurd ((sameKeyTriple_iff b prev).mpr
          ⟨this.1.symm, this.2.1.symm, this.2.2.symm⟩) (by simpa using hs)

theorem mem_assignIdsFrom {x : EntryDetail} :
    ∀ (l : List KeyedEntry) (i : Nat), x ∈ assignIdsFrom i l →
      ∃ k ∈ l, ∃ j, x = withId k.entry j := by
  intro l
  induction l with
  | nil => intro i h; simp [assignIdsFrom] at h
  | cons k rest ih =>
    intro i h
    rcases List.mem_cons.mp h with h | h
    · exact ⟨k, List.mem_cons_self _ _, i + 1, h⟩
    · obtain ⟨k', hk', j, hj⟩ := ih (i + 1) h
      exact ⟨k', List.mem_cons_of_mem _ hk', j, hj⟩

theorem pairwise_assignIdsFrom (R : KeyedEntry → KeyedEntry → Prop)
    (S : EntryDetail → EntryDetail → Prop)
    (h : ∀ k1 k2 i j, R k1 k2 → S (withId k1.entry i) (withId k2.entry j)) :
    ∀ (l : List KeyedEntry) (i : Nat), l.Pairwise R →
      (assignIdsFrom i l).Pairwise S := by
  intro l
  induction l with
  | nil => intro i _; simp [assignIdsFrom]
  | cons k rest ih =>
    intro i hp
    rw [List.pairwise_cons] at hp
    rw [assignIdsFrom, List.pairwise_cons]
    constructor
    · intro x hx
      obtain ⟨k', hk', j, hj⟩ := mem_assignIdsFrom rest (i + 1) hx
      rw [hj]
      exact h k k' (i + 1) j (hp.1 k' hk')
    · exact ih (i + 1) hp.2

theorem map_id_assignIdsFrom :
    ∀ (l : List KeyedEntry) (i : Nat),
      (assignIdsFrom i l).map EntryDetail.id = List.range' (i + 1) l.length := by
  intro l
  induction l with
  | nil => intro i; simp [assignIdsFrom]
  | cons k rest ih =>
    intro i
    rw [assignIdsFrom, List.map_cons, List.length_cons, List.range'_succ, ih (i + 1)]
    rfl

theorem length_assignIdsFrom :
    ∀ (l : List KeyedEntry) (i : Nat), (assignIdsFrom i l).length = l.length := by
  intro l
  induction l with
  | nil => intro i; rfl
  | cons k rest ih =>
    intro i
    rw [assignIdsFrom, List.length_cons, List.length_cons, ih (i + 1)]

/-- C3: finalize_entries assigns dense 1-based ids in order, and no two
output entries share the triple of strict-normalized headword, source
path and target local. -/
theorem c3_finalize_dense_ids_and_distinct (entries : List EntryDetail) :
    (finalize_entries entries).map EntryDetail.id
        = List.range' 1 (finalize_entries entries).length ∧
    (finalize_entries entries).Pairwise fun a b =>
      ¬(normalize_search_key a.headword = normalize_search_key b.headword ∧
        a.source_path = b.source_path ∧ a.target_local = b.target_local) := by
  constructor
  · unfold finalize_entries
    rw [length_assignIdsFrom]
    exact map_id_assignIdsFrom _ 0
  · unfold finalize_entries
    have hkeyinv : ∀ k : KeyedEntry,
        k ∈ dedupKeyed (sortByLE keyedLE (entries.map fun e =>
          { hk := normalize_search_key e.headword
            sk := e.source_path
            lk := e.target_local
            entry := e : KeyedEntry })) →
        k.hk = normalize_search_key k.entry.headword ∧
        k.sk = k.entry.source_path ∧ k.lk = k.entry.target_local := by
      intro k hk
      have hk2 : k ∈ sortByLE keyedLE (entries.map fun e =>
          ({ hk := normalize_search_key e.headword
             sk := e.source_path
             lk := e.target_local
             entry := e } : KeyedEntry)) := by
        rcases hsl : sortByLE keyedLE (entries.map fun e =>
            ({ hk := normalize_search_key e.headword
               sk := e.source_path
               lk := e.target_local
               entry := e } : KeyedEntry)) with _ | ⟨a, t⟩
        · rw [hsl] at hk; simp [dedupKeyed] at hk
        · rw [hsl] at hk
          rcases List.mem_cons.mp hk with h | h
          · simp [h]
          · exact List.mem_cons_of_mem _ (dedupGo_subset k t a h)
      rw [mem_sortByLE] at hk2
      obtain ⟨e, _, he⟩ := List.mem_map.mp hk2
      rw [← he]
      exact ⟨rfl, rfl, rfl⟩
    have hsorted := sorted_sortByLE keyedLE keyedLE_trans keyedLE_total
      (entries.map fun e =>
        ({ hk := normalize_search_key e.headword
           sk := e.source_path
           lk := e.target_local
           entry := e } : KeyedEntry))
    have hdedup : (dedupKeyed (sortByLE keyedLE (entries.map fun e =>
        ({ hk := normalize_search_key e.headword
           sk := e.source_path
           lk := e.target_local
           entry := e } : KeyedEntry)))).Pairwise
        (fun k1 k2 => ¬(k1.hk = k2.hk ∧ k1.sk = k2.sk ∧ k1.lk = k2.lk)) := by
      rcases hsl : sortByLE keyedLE (entries.map fun e =>
          ({ hk := normalize_search_key e.headword
             sk := e.source_path
             lk := e.target_local
             entry := e } : KeyedEntry)) with _ | ⟨a, t⟩
      · simp [dedupKeyed]
      · rw [hsl] at hsorted
        exact pairwise_dedupGo t a hsorted
    have hdedup2 : (dedupKeyed (sortByLE keyedLE (entries.map fun e =>
        ({ hk := normalize_search_key e.headword
           sk := e.source_path
           lk := e.target_local
           entry := e } : KeyedEntry)))).Pairwise
        (fun k1 k2 =>
          ¬(normalize_search_key k1.entry.headword
              = normalize_search_key k2.entry.headword ∧
            k1.entry.source_path = k2.entry.source_path ∧
            k1.entry.target_local = k2.entry.target_local)) := by
      refine List.Pairwise.imp_of_mem ?_ hdedup
      intro k1 k2 h1 h2 hr hcon
      obtain ⟨i1, i2, i3⟩ := hkeyinv k1 h1
      obtain ⟨j1, j2, j3⟩ := hkeyinv k2 h2
      exact hr ⟨by rw [i1, j1]; exact hcon.1,
        by rw [i2, j2]; exact hcon.2.1,
        by rw [i3, j3]; exact hcon.2.2⟩
    exact pairwise_assignIdsFrom _ _
      (fun k1 k2 i j hr hcon => hr ⟨hcon.1, hcon.2.1, hcon.2.2⟩) _ 0 hdedup2

/-! ## Internal reference parsing (runtime/link_media.rs) and HHK
entry construction (parsing/index.rs) -/

/-- Rust rsplit(seps).next(): the segment after the last separator (the
whole string when no separator occurs). -/
def lastSeg (seps : List Nat) (s : List Nat) : List Nat :=
  s.foldl (fun acc c => if seps.contains c then [] else acc ++ [c]) []

/-- Model of chm_basename_lower (runtime/zip.rs): basename after the
last slash or backslash, ASCII-lowercased. -/
def chm_basename_lower (name : List Nat) : List Nat :=
  asciiLower (lastSeg [47, 92] name)

/-- Rust str::find for a substring: index of the first occurrence. -/
def findSub (needle : List Nat) : List Nat → Option Nat
  | [] => if needle.isEmpty then some 0 else none
  | a :: rest =>
    if needle.isPrefixOf (a :: rest) then some 0
    else (findSub needle rest).map (· + 1)

/-- Rust str::trim, restricted to the ASCII whitespace this code base
meets. -/
def trimWs (s : List Nat) : List Nat :=
  ((s.dropWhile isWsChar).reverse.dropWhile isWsChar).reverse

/-- Model of extract_chm_name (runtime/link_media.rs): take the input
through the first .chm occurrence (case-insensitive), keep the part
after the last colon, slash or backslash, trim it and lowercase it. -/
def extract_chm_name (p : List Nat) : Option (List Nat) :=
  match findSub (str ".chm") (asciiLower p) with
  | none => none
  | some idx =>
    if (trimWs (lastSeg [58, 47, 92] (p.take (idx + 4)))).isEmpty then none
    else some (asciiLower (trimWs (lastSeg [58, 47, 92] (p.take (idx + 4)))))

/-- Prefix of the list before the first occurrence of any stop
codepoint (Rust value.split([stops]).next()). -/
def takeUntilAny (stops : List Nat) (s : List Nat) : List Nat :=
  s.takeWhile fun c => !(stops.contains c)

/-- Worker for trim_start_matches("./"): repeatedly drop a leading
dot-slash; fuel is the input length. -/
def stripDotSlashGo : Nat → List Nat → List Nat
  | 0, s => s
  | fuel + 1, s =>
    if (str "./").isPrefixOf s then stripDotSlashGo fuel (s.drop 2) else s

/-- Rust trim_start_matches("./"). -/
def stripDotSlash (s : List Nat) : List Nat := stripDotSlashGo s.length s

/-- External-scheme and fragment-only pre-filter of parse_internal_ref
(runtime/link_media.rs), applied to the lowercased trimmed ref. -/
def isExternalRef (lower : List Nat) : Bool :=
  (str "http://").isPrefixOf lower || (str "https://").isPrefixOf lower ||
    (str "mailto:").isPrefixOf lower || (str "javascript:").isPrefixOf lower ||
    (str "#").isPrefixOf lower || (str "data:").isPrefixOf lower

/-- Local-path cleanup of parse_internal_ref: strip fragment and query,
fold backslashes to slashes, trim, strip leading slashes and leading
dot-slash pairs, trim again. -/
def cleanLocalValue (v : List Nat) : List Nat :=
  trimWs (stripDotSlash (trimWs
    ((trimWs ((takeUntilAny [35, 63] v).map fun c =>
      if c == 92 then 47 else c)).dropWhile (· == 47))))

/-- Model of parse_internal_ref (runtime/link_media.rs): trim, reject
external schemes and fragment-only refs, split a source override off a
::/ marker, clean the local value, and return (source override, local
path, is-absolute).  A ref with a ::/ marker is absolute; otherwise a
leading slash makes it absolute. -/
def parse_internal_ref (raw_ref : List Nat) :
    Option (Option (List Nat) × List Nat × Bool) :=
  if (trimWs raw_ref).isEmpty then none
  else if isExternalRef (asciiLower (trimWs raw_ref)) then none
  else
    match findSub (str "::/") (trimWs raw_ref) with
    | some i =>
      if (cleanLocalValue ((trimWs raw_ref).drop (i + 3))).isEmpty then none
      else
        some (extract_chm_name ((trimWs raw_ref).take i),
          cleanLocalValue ((trimWs raw_ref).drop (i + 3)), true)
    | none =>
      if (cleanLocalValue (trimWs raw_ref)).isEmpty then none
      else
        some (none, cleanLocalValue (trimWs raw_ref),
          (str "/").isPrefixOf (trimWs raw_ref))

/-- Model of normalize_path (runtime/link_media.rs): split on slashes,
drop empty and dot segments, pop on dot-dot, rejoin. -/
def normalize_path (input : List Nat) : List Nat :=
  let segs := input.foldr
    (fun c (acc : List (List Nat) × List Nat) =>
      if c == 47 then (acc.2 :: acc.1, []) else (acc.1, c :: acc.2))
    ([], [])
  let pieces := segs.2 :: segs.1
  let out := pieces.foldl
    (fun (out : List (List Nat)) seg =>
      if seg.isEmpty || seg = [46] then out
      else if seg = [46, 46] then out.dropLast
      else out ++ [seg]) []
  List.intercalate [47] out

/-- Model of path_stem (parsing/text.rs): basename after the last
slash, then the part before the last dot, trimmed. -/
def path_stem (path : List Nat) : List Nat :=
  let base := lastSeg [47] path
  let stem :=
    match (findSub [46] base.reverse).map (fun i => base.length - 1 - i) with
    | some i => base.take i
    | none => base
  trimWs stem

/-- Source path of one HHK entry: the parse_internal_ref override when
present, else the lowercased default (line 194 of parsing/index.rs). -/
def hhk_source_path (localVal default_source_path : List Nat) : List Nat :=
  ((parse_internal_ref localVal).getD (none, localVal, false)).1.getD
    (asciiLower default_source_path)

/-- Normalized target local of one HHK entry (line 195 of
parsing/index.rs). -/
def hhk_target_local (localVal : List Nat) : List Nat :=
  normalize_path ((parse_internal_ref localVal).getD (none, localVal, false)).2.1

/-- Entry construction for one sitemap OBJECT block with nonempty Name,
lines 191-210 of parsing/index.rs (parse_hhk_entries_from_text): the
Local value runs through parse_internal_ref, a source override replaces
the lowercased default source path, the local path is normalized, and
the target stem is added as an alias when new. -/
def hhk_build_entry (name localVal default_source_path : List Nat) : EntryDetail :=
  { id := 0
    headword := name
    aliases :=
      if !(compact_ws (path_stem (hhk_target_local localVal))).isEmpty &&
          !([name].contains (compact_ws (path_stem (hhk_target_local localVal)))) then
        [name] ++ [compact_ws (path_stem (hhk_target_local localVal))]
      else [name]
    source_path := hhk_source_path localVal default_source_path
    target_local := hhk_target_local localVal
    definition_text := []
    definition_html := [] }

/-- The per-block harvest of parse_hhk_entries_from_text
(parsing/index.rs): each OBJECT block contributes its (Name, Local)
parameter pair; blocks with empty Name are skipped.  The HTML scanning
that produces the block list is not modelled. -/
def parse_hhk_entries_blocks (blocks : List (List Nat × List Nat))
    (default_source_path : List Nat) : List EntryDetail :=
  blocks.filterMap fun nl =>
    if nl.1.isEmpty then none
    else some (hhk_build_entry nl.1 nl.2 default_source_path)

/-- Modelled from the spec: extract_index_entries_from_open_chm is
imported by runtime/zip.rs from parsing::index but its definition is
missing from the source tree.  Per the spec (section 4.3), it parses
every .hhk sitemap of a merge volume like the content sitemap into
EntryDetail records with sourcePath = the CHM basename lowercased, and
when no HHK entry is found it falls back to harvesting headwords from
HTML filenames, with the same sourcePath.  The sitemap blocks and the
fallback filename stems are supplied as arguments. -/
def extract_index_entries_from_open_chm (chm_file_name : List Nat)
    (hhk_blocks : List (List Nat × List Nat))
    (fallback_words : List (List Nat)) : List EntryDetail :=
  let out := parse_hhk_entries_blocks hhk_blocks (chm_basename_lower chm_file_name)
  if out.isEmpty then
    fallback_words.map fun word =>
      { id := 0
        headword := word
        aliases := [word]
        source_path := chm_basename_lower chm_file_name
        target_local := []
        definition_text := []
        definition_html := [] }
  else out

theorem lastSeg_no_sep (seps : List Nat) (s : List Nat) :
    ∀ c ∈ lastSeg seps s, seps.contains c = false := by
  unfold lastSeg
  suffices h : ∀ (acc : List Nat), (∀ c ∈ acc, seps.contains c = false) →
      ∀ c ∈ s.foldl (fun acc c => if seps.contains c then [] else acc ++ [c]) acc,
        seps.contains c = false by
    exact h [] (by simp)
  induction s with
  | nil => intro acc hacc c hc; exact hacc c hc
  | cons a rest ih =>
    intro acc hacc c hc
    simp only [List.foldl_cons] at hc
    by_cases ha : seps.contains a
    · rw [if_pos ha] at hc
      exact ih [] (by simp) c hc
    · rw [if_neg ha] at hc
      refine ih (acc ++ [a]) ?_ c hc
      intro d hd
      rcases List.mem_append.mp hd with h | h
      · exact hacc d h
      · simp only [List.mem_singleton] at h
        subst h
        simpa using ha

theorem lastSeg_eq_self (seps : List Nat) (s : List Nat)
    (h : ∀ c ∈ s, seps.contains c = false) : lastSeg seps s = s := by
  unfold lastSeg
  suffices hh : ∀ acc : List Nat,
      s.foldl (fun acc c => if seps.contains c then [] else acc ++ [c]) acc
        = acc ++ s by
    simpa using hh []
  induction s with
  | nil => intro acc; simp
  | cons a rest ih =>
    intro acc
    simp only [List.foldl_cons]
    rw [if_neg (by simpa using h a (List.mem_cons_self _ _))]
    rw [ih (fun c hc => h c (List.mem_cons_of_mem _ hc)) (acc ++ [a])]
    simp

theorem mem_trimWs {c : Nat} {s : List Nat} (h : c ∈ trimWs s) : c ∈ s := by
  unfold trimWs at h
  rw [List.mem_reverse] at h
  have h1 := (List.dropWhile_sublist isWsChar).subset h
  rw [List.mem_reverse] at h1
  exact (List.dropWhile_sublist isWsChar).subset h1

theorem asciiLowerChar_ne_sep {c : Nat} (hc : c ≠ 47 ∧ c ≠ 92 ∧ c ≠ 58) :
    asciiLowerChar c ≠ 47 ∧ asciiLowerChar c ≠ 92 ∧ asciiLowerChar c ≠ 58 := by
  unfold asciiLowerChar
  split_ifs with h <;> omega

theorem asciiLowerChar_idem (c : Nat) :
    asciiLowerChar (asciiLowerChar c) = asciiLowerChar c := by
  unfold asciiLowerChar
  split_ifs <;> omega

theorem asciiLower_idem (s : List Nat) : asciiLower (asciiLower s) = asciiLower s := by
  unfold asciiLower
  rw [List.map_map]
  apply List.map_congr_left
  intro c _
  exact asciiLowerChar_idem c

/-- A string of the shape asciiLower x with no slash in x is a fixed
point of lowercased-basename extraction. -/
theorem basename_lower_fixed (x : List Nat)
    (hx : ∀ c ∈ x, c ≠ 47) :
    asciiLower x = asciiLower (lastSeg [47] (asciiLower x)) := by
  have hnos : ∀ c ∈ asciiLower x, ([47] : List Nat).contains c = false := by
    intro c hc
    obtain ⟨d, hd, hdc⟩ := List.mem_map.mp hc
    have : c ≠ 47 := by
      rw [← hdc]
      unfold asciiLowerChar
      split_ifs with h
      · have := hx d hd
        omega
      · exact hx d hd
    simpa using this
  rw [lastSeg_eq_self [47] (asciiLower x) hnos, asciiLower_idem]

/-- Source paths produced by extract_chm_name are lowercased basenames
of themselves. -/
theorem extract_chm_name_basename {p nm : List Nat}
    (h : extract_chm_name p = some nm) :
    nm = asciiLower (lastSeg [47] nm) := by
  unfold extract_chm_name at h
  split at h
  · simp at h
  · rename_i idx _
    split at h
    · simp at h
    · rename_i he
      have hnm : nm = asciiLower (trimWs (lastSeg [58, 47, 92] (p.take (idx + 4)))) := by
        injection h.symm
      rw [hnm]
      apply basename_lower_fixed
      intro c hc
      have hmem := mem_trimWs hc
      have := lastSeg_no_sep [58, 47, 92] (p.take (idx + 4)) c hmem
      simp only [List.contains_cons, List.contains_nil, Bool.or_eq_false_iff,
        beq_eq_false_iff_ne] at this
      exact fun hcon => this.2.1 (by omega)

/-- Source paths of the shape chm_basename_lower are lowercased
basenames of themselves. -/
theorem chm_basename_lower_fixed (n : List Nat) :
    chm_basename_lower n = asciiLower (lastSeg [47] (chm_basename_lower n)) := by
  unfold chm_basename_lower
  apply basename_lower_fixed
  intro c hc
  have := lastSeg_no_sep [47, 92] n c hc
  simp only [List.contains_cons, List.contains_nil, Bool.or_eq_false_iff,
    beq_eq_false_iff_ne] at this
  exact fun hcon => this.1 (by omega)

/-- C4: every entry produced by the runtime build for a CHM volume has
sourcePath equal to the lowercased basename of itself; in particular it
contains no slash even when the ZIP entry name of the CHM has directory
components.  extract_index_entries_from_open_chm is modelled from the
spec (its definition is absent from the source tree); the per-entry
construction follows parse_hhk_entries_from_text. -/
theorem c4_source_path_is_lower_basename
    (chm_file_name : List Nat) (hhk_blocks : List (List Nat × List Nat))
    (fallback_words : List (List Nat)) :
    (extract_index_entries_from_open_chm chm_file_name hhk_blocks
        fallback_words).all
      (fun e => e.source_path == asciiLower (lastSeg [47] e.source_path)) = true := by
  rw [List.all_eq_true]
  intro e he
  rw [beq_iff_eq]
  unfold extract_index_entries_from_open_chm at he
  by_cases hempty :
      (parse_hhk_entries_blocks hhk_blocks (chm_basename_lower chm_file_name)).isEmpty
  · rw [if_pos hempty] at he
    obtain ⟨w, _, hw⟩ := List.mem_map.mp he
    rw [← hw]
    exact chm_basename_lower_fixed chm_file_name
  · rw [if_neg hempty] at he
    obtain ⟨nl, _, hnl⟩ := List.mem_filterMap.mp he
    by_cases hname : nl.1.isEmpty
    · rw [if_pos hname] at hnl; simp at hnl
    · rw [if_neg hname] at hnl
      have he2 : e = hhk_build_entry nl.1 nl.2 (chm_basename_lower chm_file_name) := by
        injection hnl.symm
      subst he2
      show hhk_source_path nl.2 (chm_basename_lower chm_file_name)
        = asciiLower (lastSeg [47]
            (hhk_source_path nl.2 (chm_basename_lower chm_file_name)))
      unfold hhk_source_path
      rcases hov : ((parse_internal_ref nl.2).getD (none, nl.2, false)).1
          with _ | nm
      · simp only [Option.getD]
        rw [show asciiLower (chm_basename_lower chm_file_name)
            = chm_basename_lower chm_file_name by
          unfold chm_basename_lower; rw [asciiLower_idem]]
        exact chm_basename_lower_fixed chm_file_name
      · simp only [Option.getD]
        have hsome : ∃ q, extract_chm_name q = some nm := by
          rcases hpr : parse_internal_ref nl.2 with _ | trip
          · rw [hpr] at hov; simp [Option.getD] at hov
          · rw [hpr] at hov
            simp only [Option.getD] at hov
            unfold parse_internal_ref at hpr
            by_cases h1 : (trimWs nl.2).isEmpty
            · rw [if_pos h1] at hpr; simp at hpr
            · rw [if_neg h1] at hpr
              by_cases h2 : isExternalRef (asciiLower (trimWs nl.2))
              · rw [if_pos h2] at hpr; simp at hpr
              · rw [if_neg h2] at hpr
                split at hpr
                · rename_i i _
                  split at hpr
                  · simp at hpr
                  · injection hpr with hthis
                    rw [← hthis] at hov
                    exact ⟨(trimWs nl.2).take i, hov⟩
                · split at hpr
                  · simp at hpr
                  · injection hpr with hthis
                    rw [← hthis] at hov
                    simp at hov
        obtain ⟨q, hq⟩ := hsome
        exact extract_chm_name_basename hq

/-! ## LZX decoder (chm/lzx.rs).  Bytes are Nat values below 256; u32
values are Nat with explicit reduction modulo 2 to the 32; i32 values
are Int with explicit wrapping where the code can wrap. -/

def LZX_MIN_MATCH : Nat := 2
def LZX_NUM_CHARS : Nat := 256
def LZX_BLOCKTYPE_INVALID : Nat := 0
def LZX_BLOCKTYPE_VERBATIM : Nat := 1
def LZX_BLOCKTYPE_ALIGNED : Nat := 2
def LZX_BLOCKTYPE_UNCOMPRESSED : Nat := 3
def LZX_PRETREE_NUM_ELEMENTS : Nat := 20
def LZX_ALIGNED_NUM_ELEMENTS : Nat := 8
def LZX_NUM_PRIMARY_LENGTHS : Nat := 7
def LZX_NUM_SECONDARY_LENGTHS : Nat := 249
def LZX_PRETREE_MAXSYMBOLS : Nat := 20
def LZX_PRETREE_TABLEBITS : Nat := 6
def LZX_MAINTREE_MAXSYMBOLS : Nat := 256 + 50 * 8
def LZX_MAINTREE_TABLEBITS : Nat := 12
def LZX_LENGTH_MAXSYMBOLS : Nat := 249 + 1
def LZX_LENGTH_TABLEBITS : Nat := 12
def LZX_ALIGNED_MAXSYMBOLS : Nat := 8
def LZX_ALIGNED_TABLEBITS : Nat := 7
def LZX_LENTABLE_SAFETY : Nat := 64

/-- The 51-entry EXTRA_BITS table of chm/lzx.rs: pairs of equal values
0, 0, 0, 0, 1, 1, 2, 2, ..., 16, 16 and then 17 for every further
slot; entry i is min(17, i / 2 - 1) with saturating Nat subtraction. -/
def EXTRA_BITS : List Nat :=
  (List.range 51).map fun i => min 17 (i / 2 - 1)

def POSITION_BASE : List Nat :=
  [0, 1, 2, 3, 4, 6, 8, 12, 16, 24, 32, 48, 64, 96, 128, 192, 256, 384, 512,
   768, 1024, 1536, 2048, 3072, 4096, 6144, 8192, 12288, 16384, 24576, 32768,
   49152, 65536, 98304, 131072, 196608, 262144, 393216, 524288, 655360, 786432,
   917504, 1048576, 1179648, 1310720, 1441792, 1572864, 1703936, 1835008,
   1966080, 2097152]

/-- Model of the Rust LzxState (chm/lzx.rs). -/
structure LzxState where
  window_bits : Nat
  window_size : Nat
  window_posn : Nat
  r0 : Nat
  r1 : Nat
  r2 : Nat
  main_elements : Nat
  header_read : Bool
  block_type : Nat
  block_length : Nat
  block_remaining : Nat
  frames_read : Nat
  intel_filesize : Int
  intel_curpos : Int
  intel_started : Bool
  window : List Nat
  pretree_table : List Nat
  pretree_len : List Nat
  maintree_table : List Nat
  maintree_len : List Nat
  length_table : List Nat
  length_len : List Nat
  aligned_table : List Nat
  aligned_len : List Nat
deriving DecidableEq

/-- Model of LzxState::new (chm/lzx.rs). -/
def LzxState.new (window_bits : Nat) : Except String LzxState :=
  if window_bits < 15 ∨ window_bits > 21 then
    .error "unsupported LZX window bits"
  else
    .ok
      { window_bits := window_bits
        window_size := 1 <<< window_bits
        window_posn := 0
        r0 := 1
        r1 := 1
        r2 := 1
        main_elements := LZX_NUM_CHARS +
          ((if window_bits = 20 then 42
            else if window_bits = 21 then 50
            else window_bits <<< 1) <<< 3)
        header_read := false
        block_type := LZX_BLOCKTYPE_INVALID
        block_length := 0
        block_remaining := 0
        frames_read := 0
        intel_filesize := 0
        intel_curpos := 0
        intel_started := false
        window := List.replicate (1 <<< window_bits) 0
        pretree_table := List.replicate ((1 <<< LZX_PRETREE_TABLEBITS) +
          (LZX_PRETREE_MAXSYMBOLS <<< 1)) 0
        pretree_len := List.replicate (LZX_PRETREE_MAXSYMBOLS + LZX_LENTABLE_SAFETY) 0
        maintree_table := List.replicate ((1 <<< LZX_MAINTREE_TABLEBITS) +
          (LZX_MAINTREE_MAXSYMBOLS <<< 1)) 0
        maintree_len := List.replicate (LZX_MAINTREE_MAXSYMBOLS + LZX_LENTABLE_SAFETY) 0
        length_table := List.replicate ((1 <<< LZX_LENGTH_TABLEBITS) +
          (LZX_LENGTH_MAXSYMBOLS <<< 1)) 0
        length_len := List.replicate (LZX_LENGTH_MAXSYMBOLS + LZX_LENTABLE_SAFETY) 0
        aligned_table := List.replicate ((1 <<< LZX_ALIGNED_TABLEBITS) +
          (LZX_ALIGNED_MAXSYMBOLS <<< 1)) 0
        aligned_len := List.replicate (LZX_ALIGNED_MAXSYMBOLS + LZX_LENTABLE_SAFETY) 0 }

def two32 : Nat := 4294967296

/-- Model of the bit reader of chm/lzx.rs; the input slice is passed
separately. -/
structure BitReader where
  pos : Nat
  bitbuf : Nat
  bitsleft : Nat
deriving DecidableEq

/-- ensure_bits (chm/lzx.rs): refill the 32-bit accumulator with one
little-endian 16-bit word while fewer than n bits are buffered.  Every
caller passes n at most 16, so a single refill always suffices; the
Rust loop form and this conditional agree on all calls made here. -/
def ensure_bits (input : List Nat) (n : Nat) (br : BitReader) :
    Except String BitReader :=
  if n ≤ br.bitsleft then .ok br
  else
    match input.get? br.pos, input.get? (br.pos + 1) with
    | some lo, some hi =>
      .ok { pos := br.pos + 2
            bitbuf := (br.bitbuf ||| ((((hi <<< 8) ||| lo)) <<< (16 - br.bitsleft))) % two32
            bitsleft := br.bitsleft + 16 }
    | _, _ => .error "bit reader out of input"

def peek_bits (br : BitReader) (n : Nat) : Nat := br.bitbuf >>> (32 - n)

def remove_bits (br : BitReader) (n : Nat) : BitReader :=
  { br with bitbuf := (br.bitbuf <<< n) % two32, bitsleft := br.bitsleft - n }

def read_bits (input : List Nat) (n : Nat) (br : BitReader) :
    Except String (Nat × BitReader) := do
  let br ← ensure_bits input n br
  .ok (peek_bits br n, remove_bits br n)

/-- Model of make_decode_table (chm/lzx.rs): canonical Huffman table
construction with a linked tail for codes longer than the table bits.
List writes outside the preallocated bounds are no-ops; the Rust code
guards the one reachable overrun itself. -/
def make_decode_table (nsyms nbits : Nat) (lens : List Nat) (table0 : List Nat) :
    Except String (List Nat) := do
  let mut table := table0
  let mut pos := 0
  let mut table_mask := 1 <<< nbits
  let mut bit_mask := table_mask >>> 1
  let mut next_symbol := bit_mask
  let mut bit_num := 1
  for _ in [0:nbits] do
    for sym in [0:nsyms] do
      if lens.getD sym 0 = bit_num then
        let leaf := pos
        pos := pos + bit_mask
        if pos > table_mask then
          throw "table overrun in direct fill"
        for fill in [0:bit_mask] do
          table := table.set (leaf + fill) sym
    bit_mask := bit_mask >>> 1
    bit_num := bit_num + 1
  if pos ≠ table_mask then
    for k in [pos:table_mask] do
      table := table.set k 0
    pos := pos <<< 16
    table_mask := table_mask <<< 16
    bit_mask := 1 <<< 15
    for _ in [0:16 - nbits] do
      for sym in [0:nsyms] do
        if lens.getD sym 0 = bit_num then
          let mut leaf := pos >>> 16
          for fill in [0:bit_num - nbits] do
            if table.getD leaf 0 = 0 then
              if (next_symbol <<< 1) + 1 ≥ table.length then
                throw "table overrun in tree fill"
              table := (table.set (next_symbol <<< 1) 0).set ((next_symbol <<< 1) + 1) 0
              table := table.set leaf next_symbol
              next_symbol := next_symbol + 1
            leaf := (table.getD leaf 0) <<< 1
            if ((pos >>> (15 - fill)) &&& 1) ≠ 0 then
              leaf := leaf + 1
          table := table.set leaf sym
          pos := pos + bit_mask
          if pos > table_mask then
            throw "table overrun in tree fill position"
      bit_mask := bit_mask >>> 1
      bit_num := bit_num + 1
  if pos = table_mask then
    return table
  if (lens.take nsyms).any (fun x => x ≠ 0) then
    throw "undersubscribed length table"
  return table

/-- The tree-walk loop of read_huffsym for symbols beyond the direct
table; the fuel bounds the at most 32 halvings of j. -/
def huffsym_walk (hufftbl : List Nat) (maxsymbols bitbuf : Nat) :
    Nat → Nat → Nat → Except String Nat
  | 0, _, _ => .error "huffman walk exhausted"
  | fuel + 1, j, i =>
    let j' := j >>> 1
    let i' := (i <<< 1) + (if bitbuf &&& j' ≠ 0 then 1 else 0)
    if j' = 0 then .error "huffman decode failure"
    else
      let i2 := hufftbl.getD i' 0
      if i2 < maxsymbols then .ok i2
      else huffsym_walk hufftbl maxsymbols bitbuf fuel j' i2

/-- Model of read_huffsym (chm/lzx.rs). -/
def read_huffsym (input : List Nat) (tablebits maxsymbols : Nat)
    (lentable hufftbl : List Nat) (br : BitReader) :
    Except String (Nat × BitReader) := do
  let br ← ensure_bits input 16 br
  let i0 := hufftbl.getD (peek_bits br tablebits) 0
  let i ←
    if i0 ≥ maxsymbols then
      huffsym_walk hufftbl maxsymbols br.bitbuf 34 (1 <<< (32 - tablebits)) i0
    else .ok i0
  match lentable.get? i with
  | none => .error "length table index out of range"
  | some n => .ok (i, remove_bits br n)

/-- The run-fill inner loops of lzx_read_lens (while y > 0 and x below
last, write v); structural on the count y. -/
def fill_lens (v last : Nat) : Nat → List Nat → Nat → List Nat × Nat
  | 0, lens, x => (lens, x)
  | y + 1, lens, x =>
    if x < last then fill_lens v last y (lens.set x v) (x + 1) else (lens, x)

/-- The delta decode of one code length (z = 19 and default branches of
lzx_read_lens): current length minus z, plus 17 when negative. -/
def lens_delta (cur z : Nat) : Nat :=
  (if (cur : Int) - (z : Int) < 0 then (cur : Int) - (z : Int) + 17
   else (cur : Int) - (z : Int)).toNat

/-- The x-scan of lzx_read_lens over symbols first..last with the
pretree-delta scheme; every iteration advances x by at least one, so
fuel bounds the loop. -/
def read_lens_go (input : List Nat) (pretree_len pretree_table : List Nat)
    (last : Nat) :
    Nat → List Nat → Nat → BitReader → Except String (List Nat × BitReader)
  | 0, lens, x, br => if x < last then .error "pretree loop stalled" else .ok (lens, br)
  | fuel + 1, lens, x, br =>
    if x < last then do
      let (z, br) ← read_huffsym input LZX_PRETREE_TABLEBITS LZX_PRETREE_MAXSYMBOLS
        pretree_len pretree_table br
      if z = 17 then do
        let (y, br) ← read_bits input 4 br
        let lx := fill_lens 0 last (y + 4) lens x
        read_lens_go input pretree_len pretree_table last fuel lx.1 lx.2 br
      else if z = 18 then do
        let (y, br) ← read_bits input 5 br
        let lx := fill_lens 0 last (y + 20) lens x
        read_lens_go input pretree_len pretree_table last fuel lx.1 lx.2 br
      else if z = 19 then do
        let (y, br) ← read_bits input 1 br
        let (z2, br) ← read_huffsym input LZX_PRETREE_TABLEBITS LZX_PRETREE_MAXSYMBOLS
          pretree_len pretree_table br
        let v := lens_delta (lens.getD x 0) z2
        let lx := fill_lens v last (y + 4) lens x
        read_lens_go input pretree_len pretree_table last fuel lx.1 lx.2 br
      else
        read_lens_go input pretree_len pretree_table last fuel
          (lens.set x (lens_delta (lens.getD x 0) z)) (x + 1) br
    else .ok (lens, br)

/-- Model of lzx_read_lens (chm/lzx.rs): read the 20 pretree code
lengths, build the pretree table, then decode the code lengths for
symbols first..last. -/
def lzx_read_lens (input : List Nat) (st : LzxState) (lens : List Nat)
    (first last : Nat) (br : BitReader) :
    Except String (LzxState × List Nat × BitReader) := do
  let mut pt := st.pretree_len
  let mut brv := br
  for x in [0:LZX_PRETREE_NUM_ELEMENTS] do
    let (v, br2) ← read_bits input 4 brv
    pt := pt.set x v
    brv := br2
  let ptable ← make_decode_table LZX_PRETREE_MAXSYMBOLS LZX_PRETREE_TABLEBITS pt
    st.pretree_table
  let (lens2, br3) ← read_lens_go input pt ptable last (last - first) lens first brv
  return ({ st with pretree_len := pt, pretree_table := ptable }, lens2, br3)

/-- Model of copy_match (chm/lzx.rs): byte-by-byte window copy with
wrap-around masking; structural on the match length. -/
def copy_match_go (window_size match_offset : Nat) :
    Nat → List Nat → Nat → List Nat × Nat
  | 0, window, wpos => (window, wpos)
  | n + 1, window, wpos =>
    let src := (window_size + wpos - match_offset) &&& (window_size - 1)
    copy_match_go window_size match_offset n
      (window.set wpos (window.getD src 0)) ((wpos + 1) &&& (window_size - 1))

/-- The mutable locals of decompress_block: the state, the bit reader,
the working window position and the three repeated-offset slots. -/
structure DecodeVars where
  st : LzxState
  br : BitReader
  wpos : Nat
  r0 : Nat
  r1 : Nat
  r2 : Nat
deriving DecidableEq

/-- The symbol loop for verbatim and aligned blocks (the this_run loop
of decompress_block); each iteration consumes at least one output
position, so this_run itself bounds the loop via fuel. -/
def decode_run (input : List Nat) : Nat → DecodeVars → Nat → Except String DecodeVars
  | 0, dv, this_run => if this_run = 0 then .ok dv else .error "run loop stalled"
  | fuel + 1, dv, this_run =>
    if this_run = 0 then .ok dv
    else do
      let (me0, br) ← read_huffsym input LZX_MAINTREE_TABLEBITS LZX_MAINTREE_MAXSYMBOLS
        dv.st.maintree_len dv.st.maintree_table dv.br
      if me0 < LZX_NUM_CHARS then
        decode_run input fuel
          { dv with
            st := { dv.st with window := dv.st.window.set dv.wpos me0 }
            br := br
            wpos := (dv.wpos + 1) &&& (dv.st.window_size - 1) }
          (this_run - 1)
      else do
        let me := me0 - LZX_NUM_CHARS
        let ml0 := me &&& LZX_NUM_PRIMARY_LENGTHS
        let (ml1, br) ←
          if ml0 = LZX_NUM_PRIMARY_LENGTHS then do
            let (lf, br2) ← read_huffsym input LZX_LENGTH_TABLEBITS LZX_LENGTH_MAXSYMBOLS
              dv.st.length_len dv.st.length_table br
            .ok (ml0 + lf, br2)
          else .ok (ml0, br)
        let match_length := ml1 + LZX_MIN_MATCH
        let mo0 := me >>> 3
        let (match_offset, r0, r1, r2, br) ←
          (if mo0 > 2 then
            if dv.st.block_type = LZX_BLOCKTYPE_VERBATIM then
              if mo0 ≠ 3 then do
                let (vb, br2) ← read_bits input (EXTRA_BITS.getD mo0 0) br
                let mo := POSITION_BASE.getD mo0 0 - 2 + vb
                .ok (mo, mo, dv.r0, dv.r1, br2)
              else .ok ((1 : Nat), (1 : Nat), dv.r0, dv.r1, br)
            else do
              let extra := EXTRA_BITS.getD mo0 0
              let mo1 := POSITION_BASE.getD mo0 0 - 2
              if extra > 3 then do
                let (vb, br2) ← read_bits input (extra - 3) br
                let (ab, br3) ← read_huffsym input LZX_ALIGNED_TABLEBITS
                  LZX_ALIGNED_MAXSYMBOLS dv.st.aligned_len dv.st.aligned_table br2
                let mo := mo1 + (vb <<< 3) + ab
                .ok (mo, mo, dv.r0, dv.r1, br3)
              else if extra = 3 then do
                let (ab, br2) ← read_huffsym input LZX_ALIGNED_TABLEBITS
                  LZX_ALIGNED_MAXSYMBOLS dv.st.aligned_len dv.st.aligned_table br
                let mo := mo1 + ab
                .ok (mo, mo, dv.r0, dv.r1, br2)
              else if extra > 0 then do
                let (vb, br2) ← read_bits input extra br
                let mo := mo1 + vb
                .ok (mo, mo, dv.r0, dv.r1, br2)
              else
                .ok ((1 : Nat), (1 : Nat), dv.r0, dv.r1, br)
          else if mo0 = 0 then .ok (dv.r0, dv.r0, dv.r1, dv.r2, br)
          else if mo0 = 1 then .ok (dv.r1, dv.r1, dv.r0, dv.r2, br)
          else .ok (dv.r2, dv.r2, dv.r1, dv.r0, br) :
            Except String (Nat × Nat × Nat × Nat × BitReader))
        if match_offset = 0 ∨ match_offset > dv.st.window_size then
          .error "illegal match offset"
        else
          let ww := copy_match_go dv.st.window_size match_offset match_length
            dv.st.window dv.wpos
          if this_run < match_length then .error "illegal match length"
          else
            decode_run input fuel
              { st := { dv.st with window := ww.1 }
                br := br
                wpos := ww.2
                r0 := r0
                r1 := r1
                r2 := r2 }
              (this_run - match_length)

/-- Byte copy of a slice into the window at a position (the
uncompressed-block branch of the run loop). -/
def write_slice : List Nat → Nat → List Nat → List Nat
  | window, _, [] => window
  | window, p, b :: rest => write_slice (window.set p b) (p + 1) rest

/-- The inner loop of decompress_block: while the current block has
remaining bytes and output is still owed, process one run; fuel is the
owed output, which strictly decreases. -/
def inner_runs (input : List Nat) :
    Nat → DecodeVars → Nat → Except String (DecodeVars × Nat)
  | 0, dv, togo =>
    if dv.st.block_remaining = 0 ∨ togo = 0 then .ok (dv, togo)
    else .error "inner loop stalled"
  | fuel + 1, dv, togo =>
    if dv.st.block_remaining = 0 ∨ togo = 0 then .ok (dv, togo)
    else do
      let this_run := min dv.st.block_remaining togo
      let togo' := togo - this_run
      let st := { dv.st with block_remaining := dv.st.block_remaining - this_run }
      let wpos := dv.wpos &&& (st.window_size - 1)
      if wpos + this_run > st.window_size then
        .error "dataformat: run crosses window boundary"
      else if st.block_type = LZX_BLOCKTYPE_VERBATIM ∨
          st.block_type = LZX_BLOCKTYPE_ALIGNED then do
        let dv' ← decode_run input this_run { dv with st := st, wpos := wpos } this_run
        inner_runs input fuel dv' togo'
      else if st.block_type = LZX_BLOCKTYPE_UNCOMPRESSED then
        if dv.br.pos + this_run > input.length then
          .error "illegal uncompressed read past input"
        else
          let ww := write_slice st.window wpos ((input.drop dv.br.pos).take this_run)
          inner_runs input fuel
            { dv with
              st := { st with window := ww }
              br := { dv.br with pos := dv.br.pos + this_run }
              wpos := (wpos + this_run) &&& (st.window_size - 1) }
            togo'
      else .error "illegal block type in decode"

/-- Little-endian u32 read from the raw input (the r0 r1 r2 reload of
an uncompressed block header). -/
def read_u32_at (input : List Nat) (p : Nat) : Except String Nat :=
  match input.get? p, input.get? (p + 1), input.get? (p + 2), input.get? (p + 3) with
  | some b0, some b1, some b2, some b3 =>
    .ok (b0 ||| (b1 <<< 8) ||| (b2 <<< 16) ||| (b3 <<< 24))
  | _, _, _, _ => .error "u32 read out of range"

/-- The maintree and length-tree setup shared by verbatim and aligned
block headers, including the intel trigger on a nonzero code length for
symbol 0xE8. -/
def read_trees (input : List Nat) (st : LzxState) (br : BitReader) :
    Except String (LzxState × BitReader) := do
  let (st, left, br) ← lzx_read_lens input st (st.maintree_len.take 256) 0 256 br
  let ml := left ++ st.maintree_len.drop 256
  let (st, right, br) ← lzx_read_lens input st
    ((ml.drop 256).take (st.main_elements - 256)) 0 (st.main_elements - 256) br
  let ml2 := ml.take 256 ++ right ++ ml.drop st.main_elements
  let mt ← make_decode_table LZX_MAINTREE_MAXSYMBOLS LZX_MAINTREE_TABLEBITS ml2
    st.maintree_table
  let st := { st with
    maintree_len := ml2
    maintree_table := mt
    intel_started := if ml2.getD 232 0 ≠ 0 then true else st.intel_started }
  let (st, llen, br) ← lzx_read_lens input st
    (st.length_len.take LZX_NUM_SECONDARY_LENGTHS) 0 LZX_NUM_SECONDARY_LENGTHS br
  let ll2 := llen ++ st.length_len.drop LZX_NUM_SECONDARY_LENGTHS
  let lt ← make_decode_table LZX_LENGTH_MAXSYMBOLS LZX_LENGTH_TABLEBITS ll2
    st.length_table
  return ({ st with length_len := ll2, length_table := lt }, br)

/-- One block header of decompress_block: the 3-bit type and 24-bit
length, then the per-type tree setup or the r0 r1 r2 reload. -/
def read_block_header (input : List Nat) (dv : DecodeVars) :
    Except String DecodeVars := do
  let br0 :=
    if dv.st.block_type = LZX_BLOCKTYPE_UNCOMPRESSED then
      let br1 :=
        if dv.st.block_length % 2 = 1 then { dv.br with pos := dv.br.pos + 1 }
        else dv.br
      { br1 with bitbuf := 0, bitsleft := 0 }
    else dv.br
  let (bt, br) ← read_bits input 3 br0
  let (i, br) ← read_bits input 16 br
  let (j, br) ← read_bits input 8 br
  let st := { dv.st with
    block_type := bt
    block_remaining := (i <<< 8) ||| j
    block_length := (i <<< 8) ||| j }
  if bt = LZX_BLOCKTYPE_ALIGNED then do
    let mut al := st.aligned_len
    let mut brv := br
    for k in [0:LZX_ALIGNED_NUM_ELEMENTS] do
      let (v, br2) ← read_bits input 3 brv
      al := al.set k v
      brv := br2
    let atbl ← make_decode_table LZX_ALIGNED_MAXSYMBOLS LZX_ALIGNED_TABLEBITS al
      st.aligned_table
    let (st2, br3) ← read_trees input
      { st with aligned_len := al, aligned_table := atbl } brv
    return { dv with st := st2, br := br3 }
  else if bt = LZX_BLOCKTYPE_VERBATIM then do
    let (st2, br2) ← read_trees input st br
    return { dv with st := st2, br := br2 }
  else if bt = LZX_BLOCKTYPE_UNCOMPRESSED then do
    let st := { st with intel_started := true }
    let br ← ensure_bits input 16 br
    let br ←
      if br.bitsleft > 16 then
        if br.pos < 2 then .error "uncompressed align underflow"
        else .ok { br with pos := br.pos - 2 }
      else .ok br
    let r0 ← read_u32_at input br.pos
    let r1 ← read_u32_at input (br.pos + 4)
    let r2 ← read_u32_at input (br.pos + 8)
    let br2 := { br with pos := br.pos + 12 }
    return { dv with st := st, br := br2, r0 := r0, r1 := r1, r2 := r2 }
  else .error "illegal block type"

/-- The while togo loop of decompress_block: read a header when the
previous block is exhausted, then drain runs.  The fuel covers the
output budget plus the bounded number of zero-length blocks a finite
input can carry; Rust loops until ensure_bits exhausts the input in
that case, which is an error both ways. -/
def outer_blocks (input : List Nat) :
    Nat → DecodeVars → Nat → Except String (DecodeVars × Nat)
  | 0, dv, togo => if togo = 0 then .ok (dv, 0) else .error "block loop limit"
  | fuel + 1, dv, togo =>
    if togo = 0 then .ok (dv, 0)
    else do
      let dv ← if dv.st.block_remaining = 0 then read_block_header input dv else .ok dv
      let (dv, togo') ← inner_runs input togo dv togo
      outer_blocks input fuel dv togo'

def satAdd32 (a b : Int) : Int := max (-(2 ^ 31)) (min (a + b) (2 ^ 31 - 1))

def satAddU32 (a b : Nat) : Nat := min (a + b) (two32 - 1)

/-- Signed little-endian 32-bit value of four bytes
(i32::from_le_bytes). -/
def sle32 (b0 b1 b2 b3 : Nat) : Int :=
  let n := b0 + 256 * b1 + 65536 * b2 + 16777216 * b3
  if n ≥ 2 ^ 31 then (n : Int) - 2 ^ 32 else (n : Int)

/-- Little-endian bytes of an i32 (to_le_bytes after two's-complement
wrapping). -/
def leBytes32 (v : Int) : Nat × Nat × Nat × Nat :=
  let n := (v % (2 ^ 32 : Int)).toNat
  (n % 256, n / 256 % 256, n / 65536 % 256, n / 16777216 % 256)

/-- Write the four little-endian bytes of an i32 at positions p..p+3
(the E8 rewrite of the intel pass). -/
def writeLE4 (out : List Nat) (p : Nat) (v : Int) : List Nat :=
  ((((out.set p (leBytes32 v).1).set (p + 1) (leBytes32 v).2.1).set
    (p + 2) (leBytes32 v).2.2.1).set (p + 3) (leBytes32 v).2.2.2)

/-- The scan loop of the intel E8 pass (lines 701-717 of chm/lzx.rs):
count positions are visited from index i with the running curpos, and
a position holding 0xE8 has the four bytes after it reinterpreted and
rewritten in place. -/
def e8Go (filesize : Int) : Nat → Int → Nat → List Nat → List Nat × Int
  | 0, curpos, _, out => (out, curpos)
  | count + 1, curpos, i, out =>
    let out' :=
      if out.getD i 0 = 232 then
        let ab := sle32 (out.getD (i + 1) 0) (out.getD (i + 2) 0)
          (out.getD (i + 3) 0) (out.getD (i + 4) 0)
        let rel :=
          if (-curpos) ≤ ab ∧ ab < filesize then ab - curpos else ab + filesize
        writeLE4 out (i + 1) rel
      else out
    e8Go filesize count (satAdd32 curpos 1) (i + 1) out'

/-- The intel E8 call-translation post-pass of decompress_block (lines
696-720 of chm/lzx.rs): when intel translation is active, scan the
first len - 10 positions of the produced output and rewrite E8 call
offsets; intel_curpos then advances by the output length. -/
def intel_e8_postpass (st : LzxState) (out : List Nat) : List Nat × LzxState :=
  if st.intel_started ∧ st.intel_filesize ≠ 0 then
    let out' :=
      if st.frames_read < 32768 ∧ out.length > 10 then
        (e8Go st.intel_filesize (out.length - 10) st.intel_curpos 0 out).1
      else out
    (out', { st with intel_curpos := satAdd32 st.intel_curpos (out.length : Int) })
  else (out, st)

/-- 32-bit reinterpretation of a u32 as an i32 (the intel filesize
header read). -/
def toI32 (n : Nat) : Int :=
  if n % two32 ≥ 2 ^ 31 then ((n % two32 : Nat) : Int) - 2 ^ 32 else (n % two32 : Nat)

/-- Model of decompress_block (chm/lzx.rs): decode expected_out_len
bytes of one frame from the input, updating the decoder state.  The
zero-length early return comes first, exactly as in the source. -/
def decompress_block (state : LzxState) (input : List Nat)
    (expected_out_len : Nat) : Except String (List Nat × LzxState) :=
  if expected_out_len = 0 then .ok ([], state)
  else
    (do
      let br0 : BitReader := { pos := 0, bitbuf := 0, bitsleft := 0 }
      let (st, br) ←
        if !state.header_read then do
          let (k, br) ← read_bits input 1 br0
          let (ij, br) ←
            (if k ≠ 0 then do
              let (i, br2) ← read_bits input 16 br
              let (j, br3) ← read_bits input 16 br2
              .ok ((i, j), br3)
            else .ok (((0 : Nat), (0 : Nat)), br) :
              Except String ((Nat × Nat) × BitReader))
          .ok ({ state with
            intel_filesize := toI32 ((ij.1 <<< 16) ||| ij.2)
            header_read := true }, br)
        else .ok (state, br0)
      let dv : DecodeVars :=
        { st := st, br := br, wpos := st.window_posn,
          r0 := st.r0, r1 := st.r1, r2 := st.r2 }
      let (dv, _) ← outer_blocks input (expected_out_len + input.length + 4) dv
        expected_out_len
      let wsize := dv.st.window_size
      let start :=
        if dv.wpos ≥ expected_out_len then dv.wpos - expected_out_len
        else wsize + dv.wpos - expected_out_len
      let out := (List.range expected_out_len).map fun k =>
        dv.st.window.getD ((start + k) &&& (wsize - 1)) 0
      let st := { dv.st with
        window_posn := dv.wpos, r0 := dv.r0, r1 := dv.r1, r2 := dv.r2 }
      let os := intel_e8_postpass st out
      .ok (os.1, { os.2 with frames_read := satAddU32 os.2.frames_read 1 }))

/-- Signed offset read by the E8 pass at position i: the four bytes
after the 0xE8 byte as a signed little-endian i32. -/
def e8abs (out : List Nat) (i : Nat) : Int :=
  sle32 (out.getD (i + 1) 0) (out.getD (i + 2) 0) (out.getD (i + 3) 0)
    (out.getD (i + 4) 0)

/-- The running curpos after visiting k positions of the E8 scan:
k saturating increments. -/
def satCurpos (c : Int) : Nat → Int
  | 0 => c
  | k + 1 => satCurpos (satAdd32 c 1) k

theorem e8Go_skip (fs : Int) :
    ∀ (k count : Nat) (c : Int) (i : Nat) (out : List Nat),
      k ≤ count → (∀ j, j < k → out.getD (i + j) 0 ≠ 232) →
      e8Go fs count c i out = e8Go fs (count - k) (satCurpos c k) (i + k) out := by
  intro k
  induction k with
  | zero => intro count c i out _ _; simp [satCurpos]
  | succ k ih =>
    intro count c i out hk h
    cases count with
    | zero => exact absurd hk (by omega)
    | succ m =>
      have h0 : out.getD i 0 ≠ 232 := by
        have := h 0 (Nat.succ_pos k)
        simpa using this
      have hstep : e8Go fs (m + 1) c i out = e8Go fs m (satAdd32 c 1) (i + 1) out := by
        have h0' : out[i]?.getD 0 ≠ 232 := by simpa [List.getD] using h0
        simp [e8Go, h0']
      rw [hstep, ih m (satAdd32 c 1) (i + 1) out (by omega)
        (fun j hj => by
          have hh := h (j + 1) (by omega)
          have harr : i + 1 + j = i + (j + 1) := by omega
          rw [harr]
          exact hh)]
      have h1 : m + 1 - (k + 1) = m - k := by omega
      have h2 : i + (k + 1) = i + 1 + k := by omega
      rw [h1, h2]
      rfl

theorem intel_e8_postpass_active (st : LzxState) (out : List Nat)
    (hs : st.intel_started = true) (hf : st.intel_filesize ≠ 0)
    (hfr : st.frames_read < 32768) (hl : out.length > 10) :
    intel_e8_postpass st out =
      ((e8Go st.intel_filesize (out.length - 10) st.intel_curpos 0 out).1,
       { st with intel_curpos := satAdd32 st.intel_curpos (out.length : Int) }) := by
  unfold intel_e8_postpass
  rw [if_pos ⟨hs, hf⟩, if_pos ⟨hfr, hl⟩]

/-- Concrete decoder state with intel translation active (frames 0,
filesize 1, curpos 0), used for the C2 boundary analysis. -/
def stC : LzxState :=
  { window_bits := 15, window_size := 32768, window_posn := 0, r0 := 1, r1 := 1,
    r2 := 1, main_elements := 496, header_read := true,
    block_type := LZX_BLOCKTYPE_VERBATIM, block_length := 0, block_remaining := 0,
    frames_read := 0, intel_filesize := 1, intel_curpos := 0, intel_started := true,
    window := [], pretree_table := [], pretree_len := [], maintree_table := [],
    maintree_len := [], length_table := [], length_len := [], aligned_table := [],
    aligned_len := [] }

/-- Concrete 11-byte frame output whose only 0xE8 byte sits at the
boundary position len - 10 = 1. -/
def outC : List Nat := [0, 232, 7, 0, 0, 0, 0, 0, 0, 0, 0]

/-- Concrete 12-byte frame output with an 0xE8 byte at position 0
(< len - 10 = 2), used as the C2 witness input. -/
def outW : List Nat := [232, 7, 0, 0, 0, 0, 0, 0, 0, 0, 0, 0]

/-- C2 counterexample: with intel translation fully enabled, an output
of length 11 whose byte at index len - 10 = 1 is 0xE8 passes through
the E8 post-pass unchanged, because the code scans only indices
i < len - 10 (for i in 0..last with last = len - 10), while the claim
asserts a rewrite for every i ≤ len - 10; the rewrite the claim calls
for at index 1 would have changed the buffer. -/
theorem c2_counterexample_boundary :
    stC.intel_started = true ∧ stC.intel_filesize ≠ 0 ∧ stC.frames_read < 32768 ∧
    outC.length = 11 ∧ outC.getD (outC.length - 10) 0 = 232 ∧
    (intel_e8_postpass stC outC).1 = outC ∧
    writeLE4 outC 2
      (if -(satCurpos stC.intel_curpos 1) ≤ e8abs outC 1 ∧
          e8abs outC 1 < stC.intel_filesize
        then e8abs outC 1 - satCurpos stC.intel_curpos 1
        else e8abs outC 1 + stC.intel_filesize) ≠ outC := by decide

/-- C2 (amended: the scan covers exactly the positions i < len - 10,
not i ≤ len - 10): when intel_started is set, intel_filesize is
non-zero, frames_read < 32768 and the output is longer than 10 bytes,
the first 0xE8 byte, at a position i with i + 10 < len, has the four
following bytes reinterpreted as a signed little-endian offset abs and
replaced by abs - curpos when abs lies in [-curpos, filesize) and by
abs + filesize otherwise (curpos having been saturating-incremented
once per scanned position), after which the scan continues on the
rewritten buffer; intel_curpos then advances by the output length. -/
theorem c2_amended_e8_postpass (st : LzxState) (out : List Nat) (i : Nat)
    (hs : st.intel_started = true) (hf : st.intel_filesize ≠ 0)
    (hfr : st.frames_read < 32768)
    (hfirst : ∀ j, j < i → out.getD j 0 ≠ 232)
    (he8 : out.getD i 0 = 232)
    (hi : i + 10 < out.length) :
    (intel_e8_postpass st out).1 =
      (e8Go st.intel_filesize (out.length - 10 - (i + 1))
        (satAdd32 (satCurpos st.intel_curpos i) 1) (i + 1)
        (writeLE4 out (i + 1)
          (if -(satCurpos st.intel_curpos i) ≤ e8abs out i ∧
              e8abs out i < st.intel_filesize
            then e8abs out i - satCurpos st.intel_curpos i
            else e8abs out i + st.intel_filesize))).1 ∧
    (intel_e8_postpass st out).2.intel_curpos =
      satAdd32 st.intel_curpos (out.length : Int) := by
  have hl : out.length > 10 := by omega
  rw [intel_e8_postpass_active st out hs hf hfr hl]
  constructor
  · show (e8Go st.intel_filesize (out.length - 10) st.intel_curpos 0 out).1 = _
    rw [e8Go_skip st.intel_filesize i (out.length - 10) st.intel_curpos 0 out
      (by omega) (fun j hj => by simpa using hfirst j hj)]
    have hz : (0 : Nat) + i = i := by omega
    have hsplit : out.length - 10 - i = out.length - 10 - (i + 1) + 1 := by omega
    rw [hz, hsplit]
    simp only [e8Go]
    rw [if_pos he8]
    simp only [e8abs]
  · rfl

/-- The C2 theorem applied at a concrete frame: state stC, output outW
(length 12), first 0xE8 at index 0. -/
theorem c2_amended_witness :
    (stC.intel_started = true ∧ stC.intel_filesize ≠ 0 ∧
      stC.frames_read < 32768 ∧ outW.getD 0 0 = 232 ∧ 0 + 10 < outW.length) ∧
    ((intel_e8_postpass stC outW).1 =
      (e8Go stC.intel_filesize (outW.length - 10 - (0 + 1))
        (satAdd32 (satCurpos stC.intel_curpos 0) 1) (0 + 1)
        (writeLE4 outW (0 + 1)
          (if -(satCurpos stC.intel_curpos 0) ≤ e8abs outW 0 ∧
              e8abs outW 0 < stC.intel_filesize
            then e8abs outW 0 - satCurpos stC.intel_curpos 0
            else e8abs outW 0 + stC.intel_filesize))).1 ∧
    (intel_e8_postpass stC outW).2.intel_curpos =
      satAdd32 stC.intel_curpos (outW.length : Int)) :=
  ⟨⟨rfl, by decide, by decide, rfl, by decide⟩,
    c2_amended_e8_postpass stC outW 0 rfl (by decide) (by decide)
      (fun j hj => absurd hj (by omega)) rfl (by decide)⟩

/-- C10: decompress_block called with expected output length 0 hits the
early return at the top of the function (chm/lzx.rs lines 376-383):
it yields an empty byte sequence, leaves every field of the decoder
state unchanged, and never reads the input. -/
theorem c10_zero_length_decompress (s : LzxState) (input : List Nat) :
    decompress_block s input 0 = .ok ([], s) := rfl

/-- Model of ContentItem (app/model.rs); the Rust field named local is
a Lean keyword and becomes local_path. -/
structure ContentItem where
  title : List Nat
  local_path : List Nat
deriving DecidableEq

/-- Model of RuntimeCacheManifest (runtime/storage.rs). -/
structure RuntimeCacheManifest where
  version : Nat
  contents_count : Nat
  entries_count : Nat
deriving DecidableEq

/-- Model of PersistedRuntime (runtime/storage.rs). -/
structure PersistedRuntime where
  contents : List ContentItem
  entries : List EntryDetail
deriving DecidableEq

def RUNTIME_CACHE_VERSION : Nat := 1

/-- Oracle for the filesystem and codec effects of load_runtime_cache:
existence of the three snapshot files, the bytes a read returns (none
for a read error), and the partial decode and zstd functions (none for
a failure).  All of these are ambient effects of the Rust function. -/
structure CacheOracle where
  manifest_exists : Bool
  contents_exists : Bool
  entries_exists : Bool
  read_manifest : Option (List Nat)
  read_contents : Option (List Nat)
  read_entries : Option (List Nat)
  decode_manifest : List Nat → Option RuntimeCacheManifest
  zstd_decompress : List Nat → Option (List Nat)
  decode_contents : List Nat → Option (List ContentItem)
  decode_entries : List Nat → Option (List EntryDetail)

/-- Model of load_runtime_cache (runtime/storage.rs lines 235-296) over
the oracle; the Bool records whether the snapshot directory was removed
(the fallback_none closure).  Missing files return a miss without
removal; every later failure removes the directory and returns a miss;
no failure on this path is an error. -/
def load_runtime_cache (o : CacheOracle) : Option PersistedRuntime × Bool :=
  if ¬o.manifest_exists ∨ ¬o.contents_exists ∨ ¬o.entries_exists then (none, false)
  else
    match o.read_manifest with
    | none => (none, true)
    | some manifest_bytes =>
      match o.decode_manifest manifest_bytes with
      | none => (none, true)
      | some manifest =>
        if manifest.version ≠ RUNTIME_CACHE_VERSION then (none, true)
        else
          match o.read_contents with
          | none => (none, true)
          | some contents_encoded =>
            match o.read_entries with
            | none => (none, true)
            | some entries_encoded =>
              match o.zstd_decompress contents_encoded with
              | none => (none, true)
              | some contents_bytes =>
                match o.zstd_decompress entries_encoded with
                | none => (none, true)
                | some entries_bytes =>
                  match o.decode_contents contents_bytes with
                  | none => (none, true)
                  | some contents =>
                    match o.decode_entries entries_bytes with
                    | none => (none, true)
                    | some entries =>
                      if contents.length ≠ manifest.contents_count ∨
                          entries.length ≠ manifest.entries_count then (none, true)
                      else (some ⟨contents, entries⟩, false)

/-- The fully successful load: every read, decode and decompression
succeeds, the manifest version matches, and both counts agree. -/
def cacheLoadClean (o : CacheOracle) : Prop :=
  ∃ mb m cb eb cB eB cs es,
    o.read_manifest = some mb ∧ o.decode_manifest mb = some m ∧
    m.version = RUNTIME_CACHE_VERSION ∧
    o.read_contents = some cb ∧ o.read_entries = some eb ∧
    o.zstd_decompress cb = some cB ∧ o.zstd_decompress eb = some eB ∧
    o.decode_contents cB = some cs ∧ o.decode_entries eB = some es ∧
    cs.length = m.contents_count ∧ es.length = m.entries_count

/-- C9: when all three snapshot files exist but the load is not clean
(a read or decode of the manifest or a payload fails, the zstd
decompression fails, the manifest version differs from the current
cache version, or a decoded count disagrees with the manifest),
load_runtime_cache removes the snapshot directory and returns a cache
miss, never an error. -/
theorem c9_corrupt_cache_removed (o : CacheOracle)
    (hex : o.manifest_exists = true ∧ o.contents_exists = true ∧
      o.entries_exists = true)
    (hbad : ¬ cacheLoadClean o) :
    load_runtime_cache o = (none, true) := by
  obtain ⟨h1, h2, h3⟩ := hex
  unfold load_runtime_cache
  rw [if_neg (by simp [h1, h2, h3])]
  cases hm : o.read_manifest with
  | none => rfl
  | some mb =>
  dsimp only
  cases hdm : o.decode_manifest mb with
  | none => rfl
  | some m =>
  dsimp only
  by_cases hv : m.version ≠ RUNTIME_CACHE_VERSION
  · rw [if_pos hv]
  · rw [if_neg hv]
    push_neg at hv
    cases hc : o.read_contents with
    | none => rfl
    | some cb =>
    dsimp only
    cases he : o.read_entries with
    | none => rfl
    | some eb =>
    dsimp only
    cases hz1 : o.zstd_decompress cb with
    | none => rfl
    | some cB =>
    dsimp only
    cases hz2 : o.zstd_decompress eb with
    | none => rfl
    | some eB =>
    dsimp only
    cases hdc : o.decode_contents cB with
    | none => rfl
    | some cs =>
    dsimp only
    cases hde : o.decode_entries eB with
    | none => rfl
    | some es =>
    dsimp only
    by_cases hcnt : cs.length ≠ m.contents_count ∨ es.length ≠ m.entries_count
    · rw [if_pos hcnt]
    · rw [if_neg hcnt]
      push_neg at hcnt
      exact absurd ⟨mb, m, cb, eb, cB, eB, cs, es, hm, hdm, hv, hc, he, hz1, hz2,
        hdc, hde, hcnt.1, hcnt.2⟩ hbad

/-- Concrete oracle whose three files exist but whose manifest fails to
decode. -/
def oW : CacheOracle :=
  { manifest_exists := true, contents_exists := true, entries_exists := true,
    read_manifest := some [0], read_contents := some [], read_entries := some [],
    decode_manifest := fun _ => none, zstd_decompress := fun b => some b,
    decode_contents := fun _ => some [], decode_entries := fun _ => some [] }

theorem oW_not_clean : ¬ cacheLoadClean oW := by
  rintro ⟨mb, m, cb, eb, cB, eB, cs, es, hm, hdm, hrest⟩
  exact Option.noConfusion hdm

/-- The C9 theorem applied at the concrete oracle oW: all files exist,
the manifest decode fails, and the load removes the directory and
reports a miss. -/
theorem c9_corrupt_cache_removed_witness :
    (oW.manifest_exists = true ∧ oW.contents_exists = true ∧
      oW.entries_exists = true) ∧ ¬ cacheLoadClean oW ∧
    load_runtime_cache oW = (none, true) :=
  ⟨⟨rfl, rfl, rfl⟩, oW_not_clean,
    c9_corrupt_cache_removed oW ⟨rfl, rfl, rfl⟩ oW_not_clean⟩

/-! Model of the CHM archive reader (chm/archive.rs and
chm/archive/compression.rs).  The BTreeMap fields become function maps;
u64 values become Nat (no u64 arithmetic on these paths can overflow
for inputs reachable from 8-byte fields, and the two saturating
operations are modelled explicitly). -/

def two64 : Nat := 18446744073709551616

def satAddU64 (a b : Nat) : Nat := min (a + b) (two64 - 1)

def satMulU64 (a b : Nat) : Nat := min (a * b) (two64 - 1)

/-- Model of DirectoryEntry (chm/archive.rs). -/
structure DirectoryEntry where
  path : List Nat
  space : Nat
  start : Nat
  length : Nat
deriving DecidableEq

/-- Model of LzxParams (chm/archive/compression.rs). -/
structure LzxParams where
  window_size : Nat
  reset_blkcount : Nat
deriving DecidableEq

/-- Model of CompressionContext (chm/archive/compression.rs). -/
structure CompressionContext where
  content_start : Nat
  block_len : Nat
  uncompressed_len : Nat
  compressed_len : Nat
  block_count : Nat
  block_offsets : List Nat
  lzx_params : LzxParams
deriving DecidableEq

/-- Model of NativeStream (chm/archive.rs). -/
structure NativeStream where
  next_block : Nat
  state : LzxState
deriving DecidableEq

/-- Model of ChmError (chm/archive.rs). -/
inductive ChmError where
  | InvalidFormat (s : String)
  | OutOfBounds
  | UnsupportedCompressedObject
  | DecompressionFailed (s : String)
  | Utf8Path
deriving DecidableEq

/-- Model of ChmArchive (chm/archive.rs); by_path, block_cache and
native_streams are the three BTreeMaps as function maps. -/
structure ChmArchive where
  data : List Nat
  data_offset : Nat
  entries : List DirectoryEntry
  by_path : List Nat → Option Nat
  compression : Option CompressionContext
  block_cache : Nat → Option (List Nat)
  native_streams : Nat → Option NativeStream

def insertCache (a : ChmArchive) (b : Nat) (v : List Nat) : ChmArchive :=
  { a with block_cache := fun k => if k = b then some v else a.block_cache k }

def removeStream (a : ChmArchive) (k : Nat) : ChmArchive :=
  { a with native_streams := fun j => if j = k then none else a.native_streams j }

def insertStream (a : ChmArchive) (k : Nat) (s : NativeStream) : ChmArchive :=
  { a with native_streams := fun j => if j = k then some s else a.native_streams j }

/-- Rust slice indexing data.get(s..e): the slice when s ≤ e ≤ len,
an out-of-bounds error otherwise. -/
def sliceGet (d : List Nat) (s e : Nat) : Except ChmError (List Nat) :=
  if s ≤ e ∧ e ≤ d.length then .ok ((d.drop s).take (e - s)) else .error .OutOfBounds

/-- Model of block_output_len (chm/archive/compression.rs): length the
block must decode to, from the reset table geometry. -/
def block_output_len (ctx : CompressionContext) (block : Nat) : Nat :=
  let start := satMulU64 block ctx.block_len
  if start ≥ ctx.uncompressed_len then 0
  else min ctx.block_len (ctx.uncompressed_len - start)

/-- Model of pad_for_lzx (chm/archive.rs): two zero bytes appended. -/
def pad_for_lzx (bytes : List Nat) : List Nat := bytes ++ [0, 0]

/-- The window-bits computation of decompress_block_native:
(32 - window_size.leading_zeros()) as u8 - 1, which is floor(log2 ws)
for 0 < ws < 2 to the 32 and wraps to 255 at ws = 0 (the u8
subtraction underflows). -/
def windowBitsOf (ws : Nat) : Nat := if ws = 0 then 255 else Nat.log2 ws

/-- The reset base of a block: block - block % max(reset_blkcount, 1),
as computed in decompress_block_native and in the fresh retry. -/
def resetBaseOf (ctx : CompressionContext) (block : Nat) : Nat :=
  block - block % max ctx.lzx_params.reset_blkcount 1

/-- Core of read_compressed_block_bytes (chm/archive.rs), over the
archive's raw data and content offset. -/
def read_block_bytes (d : List Nat) (doff : Nat) (ctx : CompressionContext)
    (block : Nat) : Except ChmError (List Nat) :=
  if block ≥ ctx.block_count then .error .OutOfBounds
  else
    match ctx.block_offsets.get? block with
    | none => .error .OutOfBounds
    | some start_off =>
      let end_off :=
        if block + 1 < ctx.block_offsets.length then ctx.block_offsets.getD (block + 1) 0
        else ctx.compressed_len
      if end_off < start_off then .error (.InvalidFormat "invalid block offset ordering")
      else
        sliceGet d (doff + ctx.content_start + start_off) (doff + ctx.content_start + end_off)

/-- Model of ChmArchive::read_compressed_block_bytes: pure in self,
reading only data and data_offset. -/
def ChmArchive.read_compressed_block_bytes (a : ChmArchive) (ctx : CompressionContext)
    (block : Nat) : Except ChmError (List Nat) :=
  read_block_bytes a.data a.data_offset ctx block

/-- Model of ChmArchive::find_entry: exact lowercased lookup first,
then with leading slashes trimmed. -/
def ChmArchive.find_entry (a : ChmArchive) (path : List Nat) : Option DirectoryEntry :=
  match a.by_path (asciiLower path) with
  | some idx => a.entries.get? idx
  | none =>
    match a.by_path (asciiLower (path.dropWhile (fun c => c = 47))) with
    | some idx => a.entries.get? idx
    | none => none

/-- Outcome of the streaming loop of decompress_block_native: all
blocks decoded, an LZX decode failure at a block (break into the fresh
retry), or a raw-read error (propagated immediately). -/
inductive NativeLoopResult where
  | done (target : Option (List Nat)) (st : LzxState)
  | failed (b : Nat) (e : String)
  | readErr (e : ChmError)

/-- The for b in stream.next_block..=block loop of
decompress_block_native: decode each block, memoize it in the block
cache, and remember the requested block's output.  The iteration count
block + 1 - next_block is passed as fuel. -/
def nativeGo (ctx : CompressionContext) (block : Nat) :
    Nat → ChmArchive → LzxState → Nat → Option (List Nat) →
    NativeLoopResult × ChmArchive
  | 0, a, st, _, target => (.done target st, a)
  | fuel + 1, a, st, b, target =>
    match ChmArchive.read_compressed_block_bytes a ctx b with
    | .error e => (.readErr e, a)
    | .ok cmp =>
      match decompress_block st (pad_for_lzx cmp) (block_output_len ctx b) with
      | .error e => (.failed b e, a)
      | .ok os =>
        nativeGo ctx block fuel (insertCache a b os.1) os.2 (b + 1)
          (if b = block then some os.1 else target)

/-- The for b in reset_base..=block loop of
decompress_block_native_fresh; fuel is block + 1 - reset_base. -/
def freshGo (ctx : CompressionContext) (block : Nat) :
    Nat → ChmArchive → LzxState → Nat → Option (List Nat) →
    Except String (List Nat × LzxState) × ChmArchive
  | 0, a, st, _, target => (.ok (target.getD [], st), a)
  | fuel + 1, a, st, b, target =>
    match ChmArchive.read_compressed_block_bytes a ctx b with
    | .error _ => (.error "read compressed block failed", a)
    | .ok cmp =>
      match decompress_block st (pad_for_lzx cmp) (block_output_len ctx b) with
      | .error e => (.error ("fresh decode failed: " ++ e), a)
      | .ok os =>
        freshGo ctx block fuel (insertCache a b os.1) os.2 (b + 1)
          (if b = block then some os.1 else target)

/-- Model of ChmArchive::decompress_block_native_fresh: retry from the
reset base with a fresh LZX state, memoizing every decoded block. -/
def ChmArchive.decompress_block_native_fresh (a : ChmArchive) (ctx : CompressionContext)
    (block bits : Nat) : Except String (List Nat × LzxState) × ChmArchive :=
  match LzxState.new bits with
  | .error e => (.error e, a)
  | .ok st0 =>
    freshGo ctx block (block + 1 - resetBaseOf ctx block) a st0 (resetBaseOf ctx block) none

/-- The tail of decompress_block_native after its streaming loop:
propagate a read error, run the fresh retry after an LZX failure, or
reinsert the advanced stream and return the decoded block. -/
def nativeFinish (ctx : CompressionContext) (block reset_base window_bits : Nat)
    (r : NativeLoopResult × ChmArchive) : Except ChmError (List Nat) × ChmArchive :=
  match r with
  | (.readErr e, a2) => (.error e, a2)
  | (.failed _ _, a2) =>
    match ChmArchive.decompress_block_native_fresh a2 ctx block window_bits with
    | (.ok vs, a3) => (.ok vs.1, insertStream a3 reset_base ⟨satAddU64 block 1, vs.2⟩)
    | (.error _, a3) =>
      (.error (.DecompressionFailed "stream decode failed; fresh retry failed"), a3)
  | (.done target st', a2) =>
    (.ok (target.getD []), insertStream a2 reset_base ⟨satAddU64 block 1, st'⟩)

/-- Model of ChmArchive::decompress_block_native: take (remove) the
stream for the block's reset base, rebuild it when it is ahead of the
request, decode forward to the block, and reinsert the advanced
stream; on an LZX failure retry once from the reset base fresh.  The
LzxState::new at the unwrap_or argument is evaluated eagerly in Rust,
so its failure aborts even when a stream exists. -/
def ChmArchive.decompress_block_native (a : ChmArchive) (ctx : CompressionContext)
    (block : Nat) : Except ChmError (List Nat) × ChmArchive :=
  let window_bits := windowBitsOf ctx.lzx_params.window_size
  let reset_base := resetBaseOf ctx block
  let a1 := removeStream a reset_base
  match LzxState.new window_bits with
  | .error e => (.error (.DecompressionFailed e), a1)
  | .ok st0 =>
    let stream0 := (a.native_streams reset_base).getD ⟨reset_base, st0⟩
    let stream := if stream0.next_block > block then (⟨reset_base, st0⟩ : NativeStream)
      else stream0
    nativeFinish ctx block reset_base window_bits
      (nativeGo ctx block (block + 1 - stream.next_block) a1 stream.state
        stream.next_block none)

/-- Model of ChmArchive::decompress_block: serve from the per-handle
block cache, else decode natively and memoize. -/
def ChmArchive.decompress_block (a : ChmArchive) (ctx : CompressionContext)
    (block : Nat) : Except ChmError (List Nat) × ChmArchive :=
  match a.block_cache block with
  | some v => (.ok v, a)
  | none =>
    match ChmArchive.decompress_block_native a ctx block with
    | (.error e, a') => (.error e, a')
    | (.ok out, a') => (.ok out, insertCache a' block out)

/-- The while remaining > 0 loop of read_compressed_object; fuel is
the initial remaining, which bounds the iteration count because every
iteration consumes take ≥ 1 bytes (block_len ≥ 1 is checked by the
caller); the fuel-exhausted case is unreachable. -/
def readGo (ctx : CompressionContext) :
    Nat → ChmArchive → List Nat → Nat → Nat →
    Except ChmError (List Nat) × ChmArchive
  | 0, a, out, remaining, _ =>
    if remaining = 0 then (.ok out, a) else (.error .OutOfBounds, a)
  | fuel + 1, a, out, remaining, pos =>
    if remaining = 0 then (.ok out, a)
    else
      let block := pos / ctx.block_len
      let offset_in_block := pos % ctx.block_len
      let tk := min remaining (ctx.block_len - offset_in_block)
      match ChmArchive.decompress_block a ctx block with
      | (.error e, a') => (.error e, a')
      | (.ok block_data, a') =>
        if offset_in_block + tk > block_data.length then (.error .OutOfBounds, a')
        else
          readGo ctx fuel a' (out ++ ((block_data.drop offset_in_block).take tk))
            (remaining - tk) (pos + tk)

/-- Model of ChmArchive::read_compressed_object. -/
def ChmArchive.read_compressed_object (a : ChmArchive) (start len : Nat) :
    Except ChmError (List Nat) × ChmArchive :=
  match a.compression with
  | none => (.error .UnsupportedCompressedObject, a)
  | some ctx =>
    if ctx.block_len = 0 then (.error .UnsupportedCompressedObject, a)
    else readGo ctx len a [] len start

/-- Model of ChmArchive::read_object: find the directory entry, then
slice the raw data (space 0) or read through the compressed section. -/
def ChmArchive.read_object (a : ChmArchive) (path : List Nat) :
    Except ChmError (List Nat) × ChmArchive :=
  match a.find_entry path with
  | none => (.error (.InvalidFormat "entry not found"), a)
  | some entry =>
    if entry.space ≠ 0 then a.read_compressed_object entry.start entry.length
    else
      match sliceGet a.data (a.data_offset + entry.start)
          (a.data_offset + entry.start + entry.length) with
      | .error e => (.error e, a)
      | .ok bytes => (.ok bytes, a)

/-- Deterministic decoder state after decoding n blocks from the reset
base rb with window bits wb, starting from a fresh LZX state; pure in
the archive's raw data. -/
def detState (d : List Nat) (doff : Nat) (ctx : CompressionContext) (wb rb : Nat) :
    Nat → Except String LzxState
  | 0 => LzxState.new wb
  | n + 1 =>
    match detState d doff ctx wb rb n with
    | .error e => .error e
    | .ok st =>
      match read_block_bytes d doff ctx (rb + n) with
      | .error _ => .error "block read failed"
      | .ok cmp =>
        match decompress_block st (pad_for_lzx cmp) (block_output_len ctx (rb + n)) with
        | .error e => .error e
        | .ok os => .ok os.2

/-- Deterministic output of block b when decoded in the chain started
at reset base rb; none when the chain fails anywhere up to b. -/
def detOut (d : List Nat) (doff : Nat) (ctx : CompressionContext) (wb rb b : Nat) :
    Option (List Nat) :=
  match detState d doff ctx wb rb (b - rb) with
  | .error _ => none
  | .ok st =>
    match read_block_bytes d doff ctx b with
    | .error _ => none
    | .ok cmp =>
      match decompress_block st (pad_for_lzx cmp) (block_output_len ctx b) with
      | .error _ => none
      | .ok os => some os.1

/-- Deterministic output of block b in its own reset chain. -/
def detOutB (d : List Nat) (doff : Nat) (ctx : CompressionContext) (b : Nat) :
    Option (List Nat) :=
  detOut d doff ctx (windowBitsOf ctx.lzx_params.window_size) (resetBaseOf ctx b) b

/-- The deterministic chain from rb decodes blocks rb..fb - 1 but the
LZX decode of block fb itself fails. -/
def detFailsAt (d : List Nat) (doff : Nat) (ctx : CompressionContext)
    (wb rb fb : Nat) : Prop :=
  ∃ st cmp e, detState d doff ctx wb rb (fb - rb) = .ok st ∧
    read_block_bytes d doff ctx fb = .ok cmp ∧
    decompress_block st (pad_for_lzx cmp) (block_output_len ctx fb) = .error e

theorem resetBase_arith (m block j : Nat) (hm : 1 ≤ m)
    (h1 : block - block % m ≤ j) (h2 : j ≤ block) :
    j - j % m = block - block % m := by
  have hbm : block % m < m := Nat.mod_lt _ (by omega)
  have hdiv : m * (block / m) + block % m = block := Nat.div_add_mod block m
  have hj : j = m * (block / m) + (j - (block - block % m)) := by omega
  have hlt : j - (block - block % m) < m := by omega
  have hmod : j % m = j - (block - block % m) := by
    conv_lhs => rw [hj]
    rw [Nat.mul_add_mod, Nat.mod_eq_of_lt hlt]
  omega

/-- Every block between a reset base and its block shares that reset
base. -/
theorem resetBaseOf_mem (ctx : CompressionContext) (block j : Nat)
    (h1 : resetBaseOf ctx block ≤ j) (h2 : j ≤ block) :
    resetBaseOf ctx j = resetBaseOf ctx block := by
  unfold resetBaseOf at *
  exact resetBase_arith (max ctx.lzx_params.reset_blkcount 1) block j
    (le_max_right _ _) h1 h2

theorem detState_succ_ok (d : List Nat) (doff : Nat) (ctx : CompressionContext)
    (wb rb n : Nat) (st' : LzxState) :
    detState d doff ctx wb rb (n + 1) = .ok st' ↔
      ∃ st cmp os, detState d doff ctx wb rb n = .ok st ∧
        read_block_bytes d doff ctx (rb + n) = .ok cmp ∧
        decompress_block st (pad_for_lzx cmp) (block_output_len ctx (rb + n)) = .ok os ∧
        os.2 = st' := by
  constructor
  · intro h
    unfold detState at h
    split at h
    · exact Except.noConfusion h
    · rename_i st hst
      split at h
      · exact Except.noConfusion h
      · rename_i cmp hcmp
        split at h
        · exact Except.noConfusion h
        · rename_i os hos
          exact ⟨st, cmp, os, hst, hcmp, hos, Except.ok.inj h⟩
  · rintro ⟨st, cmp, os, h1, h2, h3, h4⟩
    unfold detState
    rw [h1]
    dsimp only
    rw [h2]
    dsimp only
    rw [h3]
    dsimp only
    rw [h4]

theorem detState_ok_of_le (d : List Nat) (doff : Nat) (ctx : CompressionContext)
    (wb rb : Nat) :
    ∀ (m n : Nat), n ≤ m →
      (∃ s, detState d doff ctx wb rb m = .ok s) →
      ∃ t, detState d doff ctx wb rb n = .ok t := by
  intro m
  induction m with
  | zero =>
    intro n hn hs
    rw [Nat.le_zero.mp hn]
    exact hs
  | succ m ih =>
    intro n hn hs
    rcases Nat.lt_or_ge n (m + 1) with h | h
    · refine ih n (by omega) ?_
      rcases hs with ⟨s, hsm⟩
      rcases (detState_succ_ok d doff ctx wb rb m s).mp hsm with ⟨st, _, _, h1, _⟩
      exact ⟨st, h1⟩
    · have heq : n = m + 1 := by omega
      rw [heq]
      exact hs

/-- detOut from its three successful components. -/
theorem detOut_eq (d : List Nat) (doff : Nat) (ctx : CompressionContext)
    (wb rb b : Nat) (st : LzxState) (cmp : List Nat) (os : List Nat × LzxState)
    (h1 : detState d doff ctx wb rb (b - rb) = .ok st)
    (h2 : read_block_bytes d doff ctx b = .ok cmp)
    (h3 : decompress_block st (pad_for_lzx cmp) (block_output_len ctx b) = .ok os) :
    detOut d doff ctx wb rb b = some os.1 := by
  unfold detOut
  rw [h1]
  dsimp only
  rw [h2]
  dsimp only
  rw [h3]

theorem read_block_bytes_lt (d : List Nat) (doff : Nat) (ctx : CompressionContext)
    (b : Nat) (cmp : List Nat) (h : read_block_bytes d doff ctx b = .ok cmp) :
    b < ctx.block_count := by
  unfold read_block_bytes at h
  split at h
  · exact Except.noConfusion h
  · omega

/-- A deterministic block output implies the block index is below the
reset table's block count. -/
theorem detOut_block_lt (d : List Nat) (doff : Nat) (ctx : CompressionContext)
    (wb rb b : Nat) (v : List Nat) (h : detOut d doff ctx wb rb b = some v) :
    b < ctx.block_count := by
  unfold detOut at h
  split at h
  · exact Option.noConfusion h
  · split at h
    · exact Option.noConfusion h
    · rename_i cmp hcmp
      split at h
      · exact Option.noConfusion h
      · exact read_block_bytes_lt d doff ctx b cmp hcmp

/-- The fields of ChmArchive never written after open: raw data,
content offset, directory, path map and compression context. -/
def sameStatic (a a' : ChmArchive) : Prop :=
  a'.data = a.data ∧ a'.data_offset = a.data_offset ∧ a'.entries = a.entries ∧
  a'.by_path = a.by_path ∧ a'.compression = a.compression

theorem sameStatic_refl (a : ChmArchive) : sameStatic a a := ⟨rfl, rfl, rfl, rfl, rfl⟩

theorem sameStatic_trans {a b c : ChmArchive} (h1 : sameStatic a b)
    (h2 : sameStatic b c) : sameStatic a c :=
  ⟨h2.1.trans h1.1, h2.2.1.trans h1.2.1, h2.2.2.1.trans h1.2.2.1,
    h2.2.2.2.1.trans h1.2.2.2.1, h2.2.2.2.2.trans h1.2.2.2.2⟩

theorem insertCache_static (a : ChmArchive) (b : Nat) (v : List Nat) :
    sameStatic a (insertCache a b v) := ⟨rfl, rfl, rfl, rfl, rfl⟩

theorem removeStream_static (a : ChmArchive) (k : Nat) :
    sameStatic a (removeStream a k) := ⟨rfl, rfl, rfl, rfl, rfl⟩

theorem insertStream_static (a : ChmArchive) (k : Nat) (s : NativeStream) :
    sameStatic a (insertStream a k s) := ⟨rfl, rfl, rfl, rfl, rfl⟩

/-- Every cached block holds its deterministic chain value, and every
parked native stream is exactly the deterministic chain state for its
reset base; block_count fits in the u32 it was parsed from. -/
def Inv (a : ChmArchive) : Prop :=
  ∀ ctx, a.compression = some ctx →
    ctx.block_count < 4294967296 ∧
    (∀ b v, a.block_cache b = some v →
      detOutB a.data a.data_offset ctx b = some v) ∧
    (∀ k s, a.native_streams k = some s →
      k ≤ s.next_block ∧
      detState a.data a.data_offset ctx (windowBitsOf ctx.lzx_params.window_size) k
        (s.next_block - k) = .ok s.state)

/-- Cache entries are never lost, and never change value. -/
def cacheMono (a a' : ChmArchive) : Prop :=
  ∀ b v, a.block_cache b = some v → a'.block_cache b = some v

theorem cacheMono_refl (a : ChmArchive) : cacheMono a a := fun _ _ h => h

theorem cacheMono_trans {a b c : ChmArchive} (h1 : cacheMono a b)
    (h2 : cacheMono b c) : cacheMono a c := fun k v h => h2 k v (h1 k v h)

theorem cacheMono_insertCache (a : ChmArchive) (b : Nat) (v : List Nat)
    (h : ∀ v', a.block_cache b = some v' → v' = v) :
    cacheMono a (insertCache a b v) := by
  intro k v' hk
  show (if k = b then some v else a.block_cache k) = some v'
  by_cases hkb : k = b
  · rw [if_pos hkb]
    rw [hkb] at hk
    rw [h v' hk]
  · rw [if_neg hkb]
    exact hk

theorem cacheMono_insertStream (a : ChmArchive) (k : Nat) (s : NativeStream) :
    cacheMono a (insertStream a k s) := fun _ _ h => h

theorem cacheMono_removeStream (a : ChmArchive) (k : Nat) :
    cacheMono a (removeStream a k) := fun _ _ h => h

theorem Inv_removeStream (a : ChmArchive) (k : Nat) (h : Inv a) :
    Inv (removeStream a k) := by
  intro ctx hc
  obtain ⟨hbc, hcache, hstr⟩ := h ctx hc
  refine ⟨hbc, hcache, ?_⟩
  intro j s hs
  have hs' : (if j = k then none else a.native_streams j) = some s := hs
  by_cases hj : j = k
  · rw [if_pos hj] at hs'
    exact Option.noConfusion hs'
  · rw [if_neg hj] at hs'
    exact hstr j s hs'

theorem Inv_insertCache (a : ChmArchive) (ctx : CompressionContext) (b : Nat)
    (v : List Nat) (hc : a.compression = some ctx) (h : Inv a)
    (hv : detOutB a.data a.data_offset ctx b = some v) :
    Inv (insertCache a b v) := by
  intro ctx' hc'
  have hctx : ctx' = ctx := by
    have hcc : a.compression = some ctx' := hc'
    rw [hc] at hcc
    exact (Option.some.inj hcc).symm
  subst hctx
  obtain ⟨hbc, hcache, hstr⟩ := h ctx' hc
  refine ⟨hbc, ?_, hstr⟩
  intro b' v' hv'
  have hv'' : (if b' = b then some v else a.block_cache b') = some v' := hv'
  by_cases hb : b' = b
  · rw [if_pos hb] at hv''
    have hveq := Option.some.inj hv''
    subst hb
    rw [← hveq]
    exact hv
  · rw [if_neg hb] at hv''
    exact hcache b' v' hv''

theorem Inv_insertStream (a : ChmArchive) (ctx : CompressionContext) (k : Nat)
    (s : NativeStream) (hc : a.compression = some ctx) (h : Inv a)
    (hk : k ≤ s.next_block)
    (hs : detState a.data a.data_offset ctx (windowBitsOf ctx.lzx_params.window_size)
      k (s.next_block - k) = .ok s.state) :
    Inv (insertStream a k s) := by
  intro ctx' hc'
  have hctx : ctx' = ctx := by
    have hcc : a.compression = some ctx' := hc'
    rw [hc] at hcc
    exact (Option.some.inj hcc).symm
  subst hctx
  obtain ⟨hbc, hcache, hstr⟩ := h ctx' hc
  refine ⟨hbc, hcache, ?_⟩
  intro j s' hs'
  have hs'' : (if j = k then some s else a.native_streams j) = some s' := hs'
  by_cases hj : j = k
  · rw [if_pos hj] at hs''
    have hseq := Option.some.inj hs''
    subst hj
    rw [← hseq]
    exact ⟨hk, hs⟩
  · rw [if_neg hj] at hs''
    exact hstr j s' hs''

/-- Under the invariant, when the deterministic chain from the reset
base fails at a block fb at or before the requested one, the fresh
retry loop fails too (it replays exactly the deterministic chain),
memoizing only deterministic values on the way. -/
theorem freshGo_fail (d : List Nat) (doff : Nat) (ctx : CompressionContext)
    (block rb fb wb : Nat) (hrb : rb = resetBaseOf ctx block)
    (hwb : wb = windowBitsOf ctx.lzx_params.window_size) (hfb : fb ≤ block)
    (hfail : detFailsAt d doff ctx wb rb fb) :
    ∀ (fuel : Nat) (a : ChmArchive) (st : LzxState) (b : Nat)
      (target : Option (List Nat)),
      a.data = d → a.data_offset = doff → a.compression = some ctx → Inv a →
      b + fuel = block + 1 → rb ≤ b → b ≤ fb →
      detState d doff ctx wb rb (b - rb) = .ok st →
      ∃ e a', freshGo ctx block fuel a st b target = (.error e, a') ∧
        sameStatic a a' ∧ Inv a' ∧ cacheMono a a' := by
  intro fuel
  induction fuel with
  | zero =>
    intro a st b target _ _ _ _ hbf _ hbfb _
    exact absurd hbf (by omega)
  | succ n ih =>
    intro a st b target hd hdoff hcomp hInv hbf hrbb hbfb hst
    obtain ⟨stf, cmpf, ef, hstf, hcmpf, hef⟩ := hfail
    by_cases hbeq : b = fb
    · subst hbeq
      have hsteq : stf = st := by
        rw [hst] at hstf
        exact (Except.ok.inj hstf).symm
      subst hsteq
      have hread : ChmArchive.read_compressed_block_bytes a ctx b = .ok cmpf := by
        unfold ChmArchive.read_compressed_block_bytes
        rw [hd, hdoff]
        exact hcmpf
      refine ⟨"fresh decode failed: " ++ ef, a, ?_, sameStatic_refl a, hInv,
        cacheMono_refl a⟩
      unfold freshGo
      rw [hread]
      dsimp only
      rw [hef]
    · have hblt : b < fb := by omega
      rcases detState_ok_of_le d doff ctx wb rb (fb - rb) (b - rb + 1) (by omega)
        ⟨stf, hstf⟩ with ⟨t, ht⟩
      rcases (detState_succ_ok d doff ctx wb rb (b - rb) t).mp ht with
        ⟨st0, cmp, os, h1, h2, h3, h4⟩
      have hst0 : st0 = st := by
        rw [hst] at h1
        exact (Except.ok.inj h1).symm
      rw [hst0] at h3
      have hrbn : rb + (b - rb) = b := by omega
      rw [hrbn] at h2 h3
      have hread : ChmArchive.read_compressed_block_bytes a ctx b = .ok cmp := by
        unfold ChmArchive.read_compressed_block_bytes
        rw [hd, hdoff]
        exact h2
      have hrb' : resetBaseOf ctx b = rb := by
        rw [hrb]
        exact resetBaseOf_mem ctx block b (hrb ▸ hrbb) (by omega)
      have hdetB : detOutB d doff ctx b = some os.1 := by
        unfold detOutB
        rw [hrb', ← hwb]
        exact detOut_eq d doff ctx wb rb b st cmp os hst h2 h3
      have hInv' : Inv (insertCache a b os.1) :=
        Inv_insertCache a ctx b os.1 hcomp hInv (by rw [hd, hdoff]; exact hdetB)
      have hmono : cacheMono a (insertCache a b os.1) := by
        refine cacheMono_insertCache a b os.1 ?_
        intro v' hv'
        obtain ⟨_, hcache, _⟩ := hInv ctx hcomp
        have hc2 := hcache b v' hv'
        rw [hd, hdoff, hdetB] at hc2
        exact (Option.some.inj hc2).symm
      obtain ⟨e, a', heq, hstatic, hInv'', hmono'⟩ :=
        ih (insertCache a b os.1) os.2 (b + 1) (if b = block then some os.1 else target)
          hd hdoff hcomp hInv' (by omega) (by omega) (by omega)
          (by
            have hidx : b + 1 - rb = (b - rb) + 1 := by omega
            rw [hidx, h4]
            exact ht)
      refine ⟨e, a', ?_, sameStatic_trans (insertCache_static a b os.1) hstatic,
        hInv'', cacheMono_trans hmono hmono'⟩
      unfold freshGo
      rw [hread]
      dsimp only
      rw [h3]
      dsimp only
      exact heq

/-- Under the invariant, the streaming loop of decompress_block_native
entered at the deterministic chain state either decodes through the
requested block (yielding its deterministic output and the advanced
deterministic state), stops at a deterministic LZX failure, or
propagates a raw-read error; in all cases it memoizes only
deterministic block values. -/
theorem nativeGo_spec (d : List Nat) (doff : Nat) (ctx : CompressionContext)
    (block rb wb : Nat) (hrb : rb = resetBaseOf ctx block)
    (hwb : wb = windowBitsOf ctx.lzx_params.window_size) :
    ∀ (fuel : Nat) (a : ChmArchive) (st : LzxState) (b : Nat)
      (target : Option (List Nat)),
      a.data = d → a.data_offset = doff → a.compression = some ctx → Inv a →
      b + fuel = block + 1 → rb ≤ b →
      detState d doff ctx wb rb (b - rb) = .ok st →
      (block < b → ∃ v, target = some v ∧ detOut d doff ctx wb rb block = some v) →
      sameStatic a (nativeGo ctx block fuel a st b target).2 ∧
      Inv (nativeGo ctx block fuel a st b target).2 ∧
      cacheMono a (nativeGo ctx block fuel a st b target).2 ∧
      ((∃ v st', (nativeGo ctx block fuel a st b target).1 = .done (some v) st' ∧
          detOut d doff ctx wb rb block = some v ∧
          detState d doff ctx wb rb (block + 1 - rb) = .ok st') ∨
       (∃ fb e, (nativeGo ctx block fuel a st b target).1 = .failed fb e ∧
          rb ≤ fb ∧ fb ≤ block ∧ detFailsAt d doff ctx wb rb fb) ∨
       (∃ e, (nativeGo ctx block fuel a st b target).1 = .readErr e)) := by
  intro fuel
  induction fuel with
  | zero =>
    intro a st b target hd hdoff hcomp hInv hbf hrbb hst htgt
    have hb : b = block + 1 := by omega
    subst hb
    obtain ⟨v, htv, hdet⟩ := htgt (by omega)
    subst htv
    exact ⟨sameStatic_refl a, hInv, cacheMono_refl a,
      Or.inl ⟨v, st, rfl, hdet, hst⟩⟩
  | succ n ih =>
    intro a st b target hd hdoff hcomp hInv hbf hrbb hst htgt
    have hble : b ≤ block := by omega
    cases hr : ChmArchive.read_compressed_block_bytes a ctx b with
    | error e =>
      have hstep : nativeGo ctx block (n + 1) a st b target = (.readErr e, a) := by
        unfold nativeGo
        rw [hr]
      rw [hstep]
      exact ⟨sameStatic_refl a, hInv, cacheMono_refl a, Or.inr (Or.inr ⟨e, rfl⟩)⟩
    | ok cmp =>
      cases hdec : decompress_block st (pad_for_lzx cmp) (block_output_len ctx b) with
      | error e =>
        have hstep : nativeGo ctx block (n + 1) a st b target = (.failed b e, a) := by
          unfold nativeGo
          rw [hr]
          dsimp only
          rw [hdec]
        rw [hstep]
        refine ⟨sameStatic_refl a, hInv, cacheMono_refl a,
          Or.inr (Or.inl ⟨b, e, rfl, hrbb, hble, st, cmp, e, hst, ?_, hdec⟩)⟩
        unfold ChmArchive.read_compressed_block_bytes at hr
        rw [hd, hdoff] at hr
        exact hr
      | ok os =>
        have hr' : read_block_bytes d doff ctx b = .ok cmp := by
          unfold ChmArchive.read_compressed_block_bytes at hr
          rw [hd, hdoff] at hr
          exact hr
        have hrbn : rb + (b - rb) = b := by omega
        have hnext : detState d doff ctx wb rb (b - rb + 1) = .ok os.2 := by
          refine (detState_succ_ok d doff ctx wb rb (b - rb) os.2).mpr
            ⟨st, cmp, os, hst, ?_, ?_, rfl⟩
          · rw [hrbn]
            exact hr'
          · rw [hrbn]
            exact hdec
        have hrb' : resetBaseOf ctx b = rb := by
          rw [hrb]
          exact resetBaseOf_mem ctx block b (hrb ▸ hrbb) hble
        have hdetb : detOut d doff ctx wb rb b = some os.1 :=
          detOut_eq d doff ctx wb rb b st cmp os hst hr' hdec
        have hdetB : detOutB d doff ctx b = some os.1 := by
          unfold detOutB
          rw [hrb', ← hwb]
          exact hdetb
        have hInv' : Inv (insertCache a b os.1) :=
          Inv_insertCache a ctx b os.1 hcomp hInv (by rw [hd, hdoff]; exact hdetB)
        have hmono : cacheMono a (insertCache a b os.1) := by
          refine cacheMono_insertCache a b os.1 ?_
          intro v' hv'
          obtain ⟨_, hcache, _⟩ := hInv ctx hcomp
          have hc2 := hcache b v' hv'
          rw [hd, hdoff, hdetB] at hc2
          exact (Option.some.inj hc2).symm
        have htgt' : block < b + 1 →
            ∃ v, (if b = block then some os.1 else target) = some v ∧
              detOut d doff ctx wb rb block = some v := by
          intro hlt
          have hbb : b = block := by omega
          rw [if_pos hbb]
          refine ⟨os.1, rfl, ?_⟩
          rw [← hbb]
          exact hdetb
        have hstep : nativeGo ctx block (n + 1) a st b target =
            nativeGo ctx block n (insertCache a b os.1) os.2 (b + 1)
              (if b = block then some os.1 else target) := by
          conv_lhs => unfold nativeGo
          rw [hr]
          dsimp only
          rw [hdec]
        rw [hstep]
        obtain ⟨hstatic, hInv'', hmono', hcases⟩ :=
          ih (insertCache a b os.1) os.2 (b + 1)
            (if b = block then some os.1 else target)
            hd hdoff hcomp hInv' (by omega) (by omega)
            (by
              have hidx : b + 1 - rb = (b - rb) + 1 := by omega
              rw [hidx]
              exact hnext)
            htgt'
        exact ⟨sameStatic_trans (insertCache_static a b os.1) hstatic,
          hInv'', cacheMono_trans hmono hmono', hcases⟩

/-- Under the invariant, the tail of decompress_block_native preserves
the invariant and returns only the requested block's deterministic
output. -/
theorem nativeFinish_spec (d : List Nat) (doff : Nat) (ctx : CompressionContext)
    (block rb wb : Nat) (hrb : rb = resetBaseOf ctx block)
    (hwb : wb = windowBitsOf ctx.lzx_params.window_size)
    (r : NativeLoopResult × ChmArchive)
    (hd : r.2.data = d) (hdoff : r.2.data_offset = doff)
    (hcomp : r.2.compression = some ctx) (hInv : Inv r.2)
    (hcases :
      (∃ v st', r.1 = .done (some v) st' ∧ detOut d doff ctx wb rb block = some v ∧
        detState d doff ctx wb rb (block + 1 - rb) = .ok st') ∨
      (∃ fb e, r.1 = .failed fb e ∧ rb ≤ fb ∧ fb ≤ block ∧
        detFailsAt d doff ctx wb rb fb) ∨
      (∃ e, r.1 = .readErr e)) :
    sameStatic r.2 (nativeFinish ctx block rb wb r).2 ∧
    Inv (nativeFinish ctx block rb wb r).2 ∧
    cacheMono r.2 (nativeFinish ctx block rb wb r).2 ∧
    ∀ v, (nativeFinish ctx block rb wb r).1 = .ok v →
      detOutB d doff ctx block = some v := by
  have hrble : rb ≤ block := by
    rw [hrb]
    exact Nat.sub_le _ _
  obtain ⟨r1, a2⟩ := r
  rcases hcases with ⟨v, st', hr1, hdet, hds⟩ | ⟨fb, e, hr1, hrbfb, hfbb, hfail⟩ |
    ⟨e, hr1⟩
  · subst hr1
    obtain ⟨hbc, _, _⟩ := hInv ctx hcomp
    have hblt : block < ctx.block_count := detOut_block_lt d doff ctx wb rb block v hdet
    have hsat : satAddU64 block 1 = block + 1 := by
      unfold satAddU64 two64
      omega
    refine ⟨insertStream_static a2 rb _, ?_, cacheMono_insertStream a2 rb _, ?_⟩
    · refine Inv_insertStream a2 ctx rb _ hcomp hInv ?_ ?_
      · show rb ≤ satAddU64 block 1
        rw [hsat]
        omega
      · show detState a2.data a2.data_offset ctx
          (windowBitsOf ctx.lzx_params.window_size) rb (satAddU64 block 1 - rb) =
            .ok st'
        rw [hd, hdoff, hsat, ← hwb]
        exact hds
    · intro v' hv'
      have hvv : v = v' := Except.ok.inj hv'
      rw [← hvv]
      unfold detOutB
      rw [← hrb, ← hwb]
      exact hdet
  · subst hr1
    have hfail' := hfail
    obtain ⟨stf, _, _, hstf, _, _⟩ := hfail'
    obtain ⟨st0, hnew⟩ := detState_ok_of_le d doff ctx wb rb (fb - rb) 0 (by omega)
      ⟨stf, hstf⟩
    have hnew' : LzxState.new wb = .ok st0 := hnew
    obtain ⟨e', a3, hfg, hstatic3, hInv3, hmono3⟩ :=
      freshGo_fail d doff ctx block rb fb wb hrb hwb hfbb hfail
        (block + 1 - rb) a2 st0 rb none hd hdoff hcomp hInv (by omega) (le_refl rb)
        hrbfb (by rw [Nat.sub_self]; exact hnew')
    have hstep : nativeFinish ctx block rb wb (.failed fb e, a2) =
        (.error (.DecompressionFailed "stream decode failed; fresh retry failed"),
          a3) := by
      unfold nativeFinish
      dsimp only
      unfold ChmArchive.decompress_block_native_fresh
      rw [hnew']
      dsimp only
      rw [← hrb, hfg]
    rw [hstep]
    exact ⟨hstatic3, hInv3, hmono3, fun v h => Except.noConfusion h⟩
  · subst hr1
    exact ⟨sameStatic_refl a2, hInv, cacheMono_refl a2, fun v h => Except.noConfusion h⟩

/-- The streaming loop plus tail, entered at any deterministic resume
point. -/
theorem native_tail (d : List Nat) (doff : Nat) (ctx : CompressionContext)
    (block : Nat) (a : ChmArchive) (b0 : Nat) (st : LzxState)
    (hd : a.data = d) (hdoff : a.data_offset = doff)
    (hcomp : a.compression = some ctx) (hInv : Inv a)
    (hb0 : b0 ≤ block) (hrbb : resetBaseOf ctx block ≤ b0)
    (hst : detState d doff ctx (windowBitsOf ctx.lzx_params.window_size)
      (resetBaseOf ctx block) (b0 - resetBaseOf ctx block) = .ok st) :
    sameStatic a (nativeFinish ctx block (resetBaseOf ctx block)
      (windowBitsOf ctx.lzx_params.window_size)
      (nativeGo ctx block (block + 1 - b0) a st b0 none)).2 ∧
    Inv (nativeFinish ctx block (resetBaseOf ctx block)
      (windowBitsOf ctx.lzx_params.window_size)
      (nativeGo ctx block (block + 1 - b0) a st b0 none)).2 ∧
    cacheMono a (nativeFinish ctx block (resetBaseOf ctx block)
      (windowBitsOf ctx.lzx_params.window_size)
      (nativeGo ctx block (block + 1 - b0) a st b0 none)).2 ∧
    ∀ v, (nativeFinish ctx block (resetBaseOf ctx block)
      (windowBitsOf ctx.lzx_params.window_size)
      (nativeGo ctx block (block + 1 - b0) a st b0 none)).1 = .ok v →
      detOutB d doff ctx block = some v := by
  obtain ⟨hstatic2, hInv2, hmono2, hcases⟩ :=
    nativeGo_spec d doff ctx block (resetBaseOf ctx block)
      (windowBitsOf ctx.lzx_params.window_size) rfl rfl
      (block + 1 - b0) a st b0 none hd hdoff hcomp hInv (by omega) hrbb hst
      (fun h => absurd h (by omega))
  obtain ⟨hstatic3, hInv3, hmono3, hok⟩ :=
    nativeFinish_spec d doff ctx block (resetBaseOf ctx block)
      (windowBitsOf ctx.lzx_params.window_size) rfl rfl
      (nativeGo ctx block (block + 1 - b0) a st b0 none)
      (hstatic2.1.trans hd) (hstatic2.2.1.trans hdoff)
      (hstatic2.2.2.2.2.trans hcomp) hInv2 hcases
  exact ⟨sameStatic_trans hstatic2 hstatic3, hInv3,
    cacheMono_trans hmono2 hmono3, hok⟩

/-- Under the invariant, decompress_block_native preserves it and any
successful result is the block's deterministic chain output. -/
theorem native_spec (d : List Nat) (doff : Nat) (ctx : CompressionContext)
    (block : Nat) (a : ChmArchive)
    (hd : a.data = d) (hdoff : a.data_offset = doff)
    (hcomp : a.compression = some ctx) (hInv : Inv a) :
    sameStatic a (ChmArchive.decompress_block_native a ctx block).2 ∧
    Inv (ChmArchive.decompress_block_native a ctx block).2 ∧
    cacheMono a (ChmArchive.decompress_block_native a ctx block).2 ∧
    ∀ v, (ChmArchive.decompress_block_native a ctx block).1 = .ok v →
      detOutB d doff ctx block = some v := by
  have hrble : resetBaseOf ctx block ≤ block := Nat.sub_le _ _
  unfold ChmArchive.decompress_block_native
  dsimp only
  cases hnew : LzxState.new (windowBitsOf ctx.lzx_params.window_size) with
  | error e =>
    exact ⟨removeStream_static a _, Inv_removeStream a _ hInv,
      cacheMono_removeStream a _, fun v h => Except.noConfusion h⟩
  | ok st0 =>
    cases hns : a.native_streams (resetBaseOf ctx block) with
    | none =>
      dsimp only [Option.getD]
      rw [if_neg (by omega : ¬ resetBaseOf ctx block > block)]
      obtain ⟨hstatic, hInv', hmono, hok⟩ :=
        native_tail d doff ctx block (removeStream a (resetBaseOf ctx block))
          (resetBaseOf ctx block) st0 hd hdoff hcomp (Inv_removeStream a _ hInv)
          hrble (le_refl _) (by rw [Nat.sub_self]; exact hnew)
      exact ⟨sameStatic_trans (removeStream_static a _) hstatic, hInv',
        cacheMono_trans (cacheMono_removeStream a _) hmono, hok⟩
    | some s =>
      dsimp only [Option.getD]
      obtain ⟨hles, hdss⟩ := ((hInv ctx hcomp).2.2) (resetBaseOf ctx block) s hns
      rw [hd, hdoff] at hdss
      by_cases hgt : s.next_block > block
      · rw [if_pos hgt]
        obtain ⟨hstatic, hInv', hmono, hok⟩ :=
          native_tail d doff ctx block (removeStream a (resetBaseOf ctx block))
            (resetBaseOf ctx block) st0 hd hdoff hcomp (Inv_removeStream a _ hInv)
            hrble (le_refl _) (by rw [Nat.sub_self]; exact hnew)
        exact ⟨sameStatic_trans (removeStream_static a _) hstatic, hInv',
          cacheMono_trans (cacheMono_removeStream a _) hmono, hok⟩
      · rw [if_neg hgt]
        obtain ⟨hstatic, hInv', hmono, hok⟩ :=
          native_tail d doff ctx block (removeStream a (resetBaseOf ctx block))
            s.next_block s.state hd hdoff hcomp (Inv_removeStream a _ hInv)
            (by omega) hles hdss
        exact ⟨sameStatic_trans (removeStream_static a _) hstatic, hInv',
          cacheMono_trans (cacheMono_removeStream a _) hmono, hok⟩

/-- Under the invariant, decompress_block preserves it and caches any
successful result under the block's index. -/
theorem decompress_block_spec (d : List Nat) (doff : Nat) (ctx : CompressionContext)
    (block : Nat) (a : ChmArchive)
    (hd : a.data = d) (hdoff : a.data_offset = doff)
    (hcomp : a.compression = some ctx) (hInv : Inv a) :
    sameStatic a (ChmArchive.decompress_block a ctx block).2 ∧
    Inv (ChmArchive.decompress_block a ctx block).2 ∧
    cacheMono a (ChmArchive.decompress_block a ctx block).2 ∧
    ∀ v, (ChmArchive.decompress_block a ctx block).1 = .ok v →
      (ChmArchive.decompress_block a ctx block).2.block_cache block = some v := by
  unfold ChmArchive.decompress_block
  cases hc : a.block_cache block with
  | some v =>
    refine ⟨sameStatic_refl a, hInv, cacheMono_refl a, ?_⟩
    intro v' hv'
    have hvv : v = v' := Except.ok.inj hv'
    rw [← hvv]
    exact hc
  | none =>
    rcases hN : ChmArchive.decompress_block_native a ctx block with ⟨rres, a'⟩
    obtain ⟨hstatic, hInv', hmono, hok⟩ :=
      native_spec d doff ctx block a hd hdoff hcomp hInv
    rw [hN] at hstatic hInv' hmono hok
    cases rres with
    | error e =>
      exact ⟨hstatic, hInv', hmono, fun v h => Except.noConfusion h⟩
    | ok out =>
      have hout : detOutB d doff ctx block = some out := hok out rfl
      refine ⟨sameStatic_trans hstatic (insertCache_static a' block out), ?_, ?_, ?_⟩
      · exact Inv_insertCache a' ctx block out (hstatic.2.2.2.2.trans hcomp) hInv'
          (by rw [hstatic.1.trans hd, hstatic.2.1.trans hdoff]; exact hout)
      · refine cacheMono_trans hmono (cacheMono_insertCache a' block out ?_)
        intro v' hv'
        obtain ⟨_, hcache, _⟩ := hInv' ctx (hstatic.2.2.2.2.trans hcomp)
        have hc2 := hcache block v' hv'
        rw [hstatic.1.trans hd, hstatic.2.1.trans hdoff, hout] at hc2
        exact (Option.some.inj hc2).symm
      · intro v' hv'
        have hvv : out = v' := Except.ok.inj hv'
        rw [← hvv]
        show (if block = block then some out else a'.block_cache block) = some out
        rw [if_pos rfl]

/-- Cache hits are pure: the archive is returned unchanged. -/
theorem decompress_block_hit (a : ChmArchive) (ctx : CompressionContext)
    (block : Nat) (v : List Nat) (h : a.block_cache block = some v) :
    ChmArchive.decompress_block a ctx block = (.ok v, a) := by
  unfold ChmArchive.decompress_block
  rw [h]

/-- A successful pass of the compressed-read loop finishes with every
consumed block cached; replaying the loop from the final archive is
pure and returns the same bytes. -/
theorem readGo_replay (d : List Nat) (doff : Nat) (ctx : CompressionContext) :
    ∀ (fuel : Nat) (a : ChmArchive) (out : List Nat) (remaining pos : Nat)
      (res : List Nat) (a1 : ChmArchive),
      a.data = d → a.data_offset = doff → a.compression = some ctx → Inv a →
      readGo ctx fuel a out remaining pos = (.ok res, a1) →
      sameStatic a a1 ∧ Inv a1 ∧ cacheMono a a1 ∧
      readGo ctx fuel a1 out remaining pos = (.ok res, a1) := by
  intro fuel
  induction fuel with
  | zero =>
    intro a out remaining pos res a1 hd hdoff hcomp hInv h1
    unfold readGo at h1
    by_cases hrem : remaining = 0
    · rw [if_pos hrem] at h1
      injection h1 with hres ha1
      injection hres with hout
      subst ha1
      subst hout
      refine ⟨sameStatic_refl a, hInv, cacheMono_refl a, ?_⟩
      unfold readGo
      rw [if_pos hrem]
    · rw [if_neg hrem] at h1
      simp at h1
  | succ n ih =>
    intro a out remaining pos res a1 hd hdoff hcomp hInv h1
    by_cases hrem : remaining = 0
    · unfold readGo at h1
      rw [if_pos hrem] at h1
      injection h1 with hres ha1
      injection hres with hout
      subst ha1
      subst hout
      refine ⟨sameStatic_refl a, hInv, cacheMono_refl a, ?_⟩
      unfold readGo
      rw [if_pos hrem]
    · unfold readGo at h1
      rw [if_neg hrem] at h1
      dsimp only at h1
      rcases hdb : ChmArchive.decompress_block a ctx (pos / ctx.block_len) with ⟨rr, a'⟩
      rw [hdb] at h1
      obtain ⟨hstatic, hInv', hmono, hcache⟩ :=
        decompress_block_spec d doff ctx (pos / ctx.block_len) a hd hdoff hcomp hInv
      rw [hdb] at hstatic hInv' hmono hcache
      cases rr with
      | error e => simp at h1
      | ok bd =>
        dsimp only at h1
        by_cases hbound : pos % ctx.block_len +
            min remaining (ctx.block_len - pos % ctx.block_len) > bd.length
        · rw [if_pos hbound] at h1
          simp at h1
        · rw [if_neg hbound] at h1
          obtain ⟨hstatic2, hInv2, hmono2, hreplay⟩ :=
            ih a' _ _ _ res a1 (hstatic.1.trans hd) (hstatic.2.1.trans hdoff)
              (hstatic.2.2.2.2.trans hcomp) hInv' h1
          have hbd : a1.block_cache (pos / ctx.block_len) = some bd :=
            hmono2 _ bd (hcache bd rfl)
          refine ⟨sameStatic_trans hstatic hstatic2, hInv2,
            cacheMono_trans hmono hmono2, ?_⟩
          unfold readGo
          rw [if_neg hrem]
          dsimp only
          rw [decompress_block_hit a1 ctx (pos / ctx.block_len) bd hbd]
          dsimp only
          rw [if_neg hbound]
          exact hreplay

theorem find_entry_congr (a a' : ChmArchive) (h : sameStatic a a') (p : List Nat) :
    ChmArchive.find_entry a' p = ChmArchive.find_entry a p := by
  unfold ChmArchive.find_entry
  rw [h.2.2.2.1, h.2.2.1]

/-- A freshly opened handle: both per-handle maps empty, as built by
ChmArchive::open. -/
def freshCaches (a : ChmArchive) : Prop :=
  a.block_cache = (fun _ => none) ∧ a.native_streams = (fun _ => none)

/-- The compression context's block count fits the u32 field it was
parsed from. -/
def ctxWellFormed (a : ChmArchive) : Prop :=
  ∀ ctx, a.compression = some ctx → ctx.block_count < 4294967296

theorem Inv_of_fresh (a : ChmArchive) (hf : freshCaches a) (hwf : ctxWellFormed a) :
    Inv a := by
  intro ctx hc
  refine ⟨hwf ctx hc, ?_, ?_⟩
  · intro b v hb
    rw [hf.1] at hb
    exact Option.noConfusion hb
  · intro k s hs
    rw [hf.2] at hs
    exact Option.noConfusion hs

/-- C1: on a freshly opened archive handle (empty block cache and
native-stream table, block count from its u32 field), if read_object
succeeds with bytes out and updated handle a1, then reading the same
path again from a1 returns exactly the same bytes and leaves the
handle unchanged: every block consumed by the first read was memoized,
so the second read is served from the per-handle block cache. -/
theorem c1_read_object_twice_cached (a : ChmArchive) (p out : List Nat)
    (a1 : ChmArchive) (hfresh : freshCaches a) (hwf : ctxWellFormed a)
    (h1 : ChmArchive.read_object a p = (.ok out, a1)) :
    ChmArchive.read_object a1 p = (.ok out, a1) := by
  have hInv : Inv a := Inv_of_fresh a hfresh hwf
  unfold ChmArchive.read_object at h1
  cases hfe : ChmArchive.find_entry a p with
  | none =>
    rw [hfe] at h1
    simp at h1
  | some entry =>
    rw [hfe] at h1
    dsimp only at h1
    by_cases hsp : entry.space ≠ 0
    · rw [if_pos hsp] at h1
      unfold ChmArchive.read_compressed_object at h1
      cases hcomp : a.compression with
      | none =>
        rw [hcomp] at h1
        simp at h1
      | some ctx =>
        rw [hcomp] at h1
        dsimp only at h1
        by_cases hbl : ctx.block_len = 0
        · rw [if_pos hbl] at h1
          simp at h1
        · rw [if_neg hbl] at h1
          obtain ⟨hstatic, hInv1, hmono, hreplay⟩ :=
            readGo_replay a.data a.data_offset ctx entry.length a [] entry.length
              entry.start out a1 rfl rfl hcomp hInv h1
          unfold ChmArchive.read_object
          rw [find_entry_congr a a1 hstatic p, hfe]
          dsimp only
          rw [if_pos hsp]
          unfold ChmArchive.read_compressed_object
          rw [hstatic.2.2.2.2, hcomp]
          dsimp only
          rw [if_neg hbl]
          exact hreplay
    · rw [if_neg hsp] at h1
      cases hsg : sliceGet a.data (a.data_offset + entry.start)
          (a.data_offset + entry.start + entry.length) with
      | error e =>
        rw [hsg] at h1
        simp at h1
      | ok bytes =>
        rw [hsg] at h1
        dsimp only at h1
        injection h1 with hres ha1
        injection hres with hout
        subst ha1
        subst hout
        unfold ChmArchive.read_object
        rw [hfe]
        dsimp only
        rw [if_neg hsp]
        rw [hsg]

/-- Concrete freshly opened archive: raw data [1, 2, 3] at data offset
1 and a single uncompressed entry /x of length 2. -/
def aW : ChmArchive :=
  { data := [1, 2, 3], data_offset := 1,
    entries := [{ path := str "/x", space := 0, start := 0, length := 2 }],
    by_path := fun q => if q = str "/x" then some 0 else none,
    compression := none,
    block_cache := fun _ => none,
    native_streams := fun _ => none }

/-- The C1 theorem applied at the concrete archive aW and path /x. -/
theorem c1_read_object_twice_cached_witness :
    (freshCaches aW ∧ ctxWellFormed aW ∧
      ChmArchive.read_object aW (str "/x") = (.ok [2, 3], aW)) ∧
    ChmArchive.read_object aW (str "/x") = (.ok [2, 3], aW) :=
  ⟨⟨⟨rfl, rfl⟩, fun _ h => Option.noConfusion h, rfl⟩,
    c1_read_object_twice_cached aW (str "/x") [2, 3] aW ⟨rfl, rfl⟩
      (fun _ h => Option.noConfusion h) rfl⟩

end Dokhan
